import Mathlib

/-!
# jwt.hpp: Base64url codec and HS256 token protocol

A shallow embedding of `include/jwt/jwt.hpp`.

* A `char` and a `std::uint8_t` are both modelled by their unsigned byte value
  (`Byte = Fin 256`); `std::string`, `std::string_view` and
  `std::vector<std::uint8_t>` are lists of bytes.  The conversions
  `reinterpret_cast<const std::uint8_t *>` and `std::string(begin, end)` are the
  identity on that representation.
* `std::uint32_t` values are natural numbers reduced modulo `2 ^ 32` where the
  source can wrap.
* A thrown exception is an `Except.error`.
* `hmac::hmac_sha256_bytes` lives in another library; it is a parameter
  `hmac : key → message → digest` of the token operations.
-/

namespace jwt

/-- One octet: the value of a `char` or of a `std::uint8_t`. -/
abbrev Byte := Fin 256

/-- Text and binary data alike are sequences of octets. -/
abbrev Bytes := List Byte

/-- The exceptions the header can raise. -/
inductive Error where
  /-- Thrown as `std::runtime_error("invalid base64url character")`. -/
  | invalidEncoding
  /-- Thrown as `std::runtime_error("invalid jwt")`. -/
  | malformedToken
  /-- Thrown as `std::out_of_range` by `std::string_view::substr`. -/
  | outOfRange
  deriving DecidableEq, Repr

deriving instance DecidableEq for Except

/-- The octets of an ASCII literal. -/
def lit (s : String) : Bytes := s.toList.map (fun c => Fin.ofNat c.toNat)

namespace detail

/-- Table `b64_table`: the 64 symbols, without the terminating NUL. -/
def b64_table : Bytes :=
  lit "ABCDEFGHIJKLMNOPQRSTUVWXYZabcdefghijklmnopqrstuvwxyz0123456789-_"

/-- Lookup `b64_table[i]`; every index the source uses is masked with `& 63`. -/
def tbl (i : Nat) : Byte := b64_table.getD i 0

/-- Function `base64url_encode(data, size)`: the `while (i + 3 <= size)` loop consumes three
octets per round, then `rem = size - i` selects the tail. -/
def base64url_encode : Bytes → Bytes
  | d0 :: d1 :: d2 :: rest =>
    let n : Nat := (d0.val <<< 16) ||| (d1.val <<< 8) ||| d2.val
    tbl ((n >>> 18) &&& 63) :: tbl ((n >>> 12) &&& 63) ::
      tbl ((n >>> 6) &&& 63) :: tbl (n &&& 63) :: base64url_encode rest
  | [d0] =>
    let n : Nat := d0.val <<< 16
    [tbl ((n >>> 18) &&& 63), tbl ((n >>> 12) &&& 63)]
  | [d0, d1] =>
    let n : Nat := (d0.val <<< 16) ||| (d1.val <<< 8)
    [tbl ((n >>> 18) &&& 63), tbl ((n >>> 12) &&& 63), tbl ((n >>> 6) &&& 63)]
  | [] => []

/-- Function `b64_index(c)`: the 6-bit value of a symbol, `-1` for any other octet. -/
def b64_index (c : Byte) : Int :=
  if 65 ≤ c.val ∧ c.val ≤ 90 then (c.val : Int) - 65
  else if 97 ≤ c.val ∧ c.val ≤ 122 then (c.val : Int) - 97 + 26
  else if 48 ≤ c.val ∧ c.val ≤ 57 then (c.val : Int) - 48 + 52
  else if c.val = 45 then 62
  else if c.val = 95 then 63
  else -1

/-- The 64-symbol alphabet as the specification words it: `A`-`Z`, `a`-`z`, `0`-`9`,
`-` and `_`. -/
def inAlphabet (c : Byte) : Prop :=
  (65 ≤ c.val ∧ c.val ≤ 90) ∨ (97 ≤ c.val ∧ c.val ≤ 122) ∨ (48 ≤ c.val ∧ c.val ≤ 57) ∨
    c.val = 45 ∨ c.val = 95

instance : DecidablePred inAlphabet := fun c => by unfold inAlphabet; infer_instance

/-- The body of `for (char c : s)` in `base64url_decode`, with the loop state
`buffer` (a `std::uint32_t`), `bits` and `out` passed explicitly. -/
def decode_loop : Bytes → Nat → Nat → Bytes → Except Error Bytes
  | [], _, _, out => .ok out
  | c :: cs, buffer, bits, out =>
    let val := b64_index c
    if val < 0 then .error .invalidEncoding
    else
      let buffer := ((buffer <<< 6) % 2 ^ 32) ||| val.toNat
      let bits := bits + 6
      if bits ≥ 8 then
        let bits := bits - 8
        decode_loop cs buffer bits (out ++ [Fin.ofNat ((buffer >>> bits) &&& 0xff)])
      else decode_loop cs buffer bits out

/-- Function `base64url_decode(s)`: the loop started with `buffer = 0`, `bits = 0` and an
empty `out`. -/
def base64url_decode (s : Bytes) : Except Error Bytes := decode_loop s 0 0 []

end detail

/-- The separator character `'.'`. -/
def dot : Byte := 46

/-- Worker of `find`: scans the text that starts at index `i`. -/
def find_at (ch : Byte) : Bytes → Nat → Option Nat
  | [], _ => none
  | c :: cs, i => if c = ch then some i else find_at ch cs (i + 1)

/-- Member `std::string_view::find(ch, pos)`: the first index `≥ pos` holding `ch`;
`none` stands for `npos`. -/
def find (s : Bytes) (ch : Byte) (pos : Nat) : Option Nat := find_at ch (s.drop pos) pos

/-- Member `std::string_view::substr(pos, count)`: throws when `pos > size()`,
otherwise the characters `[pos, pos + min(count, size() - pos))`. -/
def substr (s : Bytes) (pos count : Nat) : Except Error Bytes :=
  if pos > s.length then .error .outOfRange else .ok ((s.drop pos).take count)

/-- Member `std::string_view::substr(pos)`, that is `count = npos`. -/
def substr_from (s : Bytes) (pos : Nat) : Except Error Bytes :=
  if pos > s.length then .error .outOfRange else .ok (s.drop pos)

/-- The literal `header` of `encode`. -/
def header : Bytes := lit "\x7b\"alg\":\"HS256\",\"typ\":\"JWT\"\x7d"

/-- Function `jwt::encode(payload_json, secret)`. -/
def encode (hmac : Bytes → Bytes → Bytes) (payload_json secret : Bytes) : Bytes :=
  let header_b64 := detail.base64url_encode header
  let payload_b64 := detail.base64url_encode payload_json
  let signing_input := header_b64 ++ [dot] ++ payload_b64
  let signature_bytes := hmac secret signing_input
  let signature_b64 := detail.base64url_encode signature_bytes
  signing_input ++ [dot] ++ signature_b64

/-- The comparison loop of `verify`:
`for (i = 0; i < expected_sig.size(); ++i) if (decoded_sig[i] != expected_sig[i]) return false;`
followed by `return true`.  The first argument is the number of rounds left,
`expected_sig.size() - i`. -/
def verify_loop (decoded_sig expected_sig : Bytes) : Nat → Nat → Bool
  | 0, _ => true
  | n + 1, i =>
    if decoded_sig.getD i 0 ≠ expected_sig.getD i 0 then false
    else verify_loop decoded_sig expected_sig n (i + 1)

/-- Body of `jwt::verify(token, secret)` with the call `detail::base64url_decode`
taken as the argument `decode`. -/
def verify_with (decode : Bytes → Except Error Bytes) (hmac : Bytes → Bytes → Bytes)
    (token secret : Bytes) : Except Error Bool :=
  match find token dot 0 with
  | none => .ok false
  | some p1 =>
    match find token dot (p1 + 1) with
    | none => .ok false
    | some p2 => do
      let header_payload ← substr token 0 p2
      let signature_part ← substr_from token (p2 + 1)
      let expected_sig := hmac secret header_payload
      let decoded_sig ← decode signature_part
      if decoded_sig.length ≠ expected_sig.length then
        return false
      return verify_loop decoded_sig expected_sig expected_sig.length 0

/-- Function `jwt::verify(token, secret)`. -/
def verify (hmac : Bytes → Bytes → Bytes) (token secret : Bytes) : Except Error Bool :=
  verify_with detail.base64url_decode hmac token secret

/-- Function `jwt::decode_without_verify(token)`. -/
def decode_without_verify (token : Bytes) : Except Error Bytes :=
  match find token dot 0 with
  | none => .error .malformedToken
  | some p1 =>
    match find token dot (p1 + 1) with
    | none => .error .malformedToken
    | some p2 => do
      let payload_part ← substr token (p1 + 1) (p2 - p1 - 1)
      let decoded ← detail.base64url_decode payload_part
      return decoded

/-- Tampering: the octet `c` with bit `k` inverted. -/
def flip_bit (c : Byte) (k : Nat) : Byte := Fin.ofNat (c.val ^^^ 2 ^ k)

/-- Tampering: the text `t` with bit `k` of the character at index `i` inverted. -/
def flip_at (t : Bytes) (i k : Nat) : Bytes := t.set i (flip_bit (t.getD i 0) k)

/-- The comparison loop of `verify` once more, now also counting the executed
comparisons `decoded_sig[i] != expected_sig[i]`: the result and the count. -/
def verify_loop_count (decoded_sig expected_sig : Bytes) : Nat → Nat → Bool × Nat
  | 0, _ => (true, 0)
  | n + 1, i =>
    if decoded_sig.getD i 0 ≠ expected_sig.getD i 0 then (false, 1)
    else
      let r := verify_loop_count decoded_sig expected_sig n (i + 1)
      (r.1, r.2 + 1)

/-- The decoder loop with `buffer` held in an arbitrary-precision integer: the
same body as `detail.decode_loop` without the reduction modulo `2 ^ 32`. -/
def decode_loop_unbounded : Bytes → Nat → Nat → Bytes → Except Error Bytes
  | [], _, _, out => .ok out
  | c :: cs, buffer, bits, out =>
    let val := detail.b64_index c
    if val < 0 then .error .invalidEncoding
    else
      let buffer := (buffer <<< 6) ||| val.toNat
      let bits := bits + 6
      if bits ≥ 8 then
        let bits := bits - 8
        decode_loop_unbounded cs buffer bits (out ++ [Fin.ofNat ((buffer >>> bits) &&& 0xff)])
      else decode_loop_unbounded cs buffer bits out

/-- The decoder run with the arbitrary-precision buffer. -/
def base64url_decode_unbounded (s : Bytes) : Except Error Bytes :=
  decode_loop_unbounded s 0 0 []

/-- The pending bit count `bits` of the decoder after the characters of `s`, started
from `bits`; the count does not depend on which alphabet characters are read. -/
def bits_after : Bytes → Nat → Nat
  | [], bits => bits
  | _ :: cs, bits =>
    let bits := bits + 6
    if bits ≥ 8 then bits_after cs (bits - 8) else bits_after cs bits

/-- Reference: bit `j` of the big-endian bit string of `b`, with zero bits past its
end. -/
def bit_at (b : Bytes) (j : Nat) : Nat := ((b.getD (j / 8) 0).val >>> (7 - j % 8)) % 2

/-- Reference: the 6-bit value formed by bits `6k .. 6k+5` of the bit string of `b`,
most significant first. -/
def sextet (b : Bytes) (k : Nat) : Nat :=
  32 * bit_at b (6 * k) + 16 * bit_at b (6 * k + 1) + 8 * bit_at b (6 * k + 2) +
    4 * bit_at b (6 * k + 3) + 2 * bit_at b (6 * k + 4) + bit_at b (6 * k + 5)

/-- The 6-bit value of the last character of `s` (`0` for the empty text). -/
def last_value (s : Bytes) : Nat := (detail.b64_index (s.getLastD 0)).toNat

/-- The condition of canonical texts: the length is not `1` modulo `4`, and the bits
of the last character that the decoder drops are zero, the low 4 bits when the
length is `2` modulo `4` and the low 2 bits when it is `3` modulo `4`. -/
def canonical (s : Bytes) : Prop :=
  s.length % 4 ≠ 1 ∧ (s.length % 4 = 2 → last_value s % 16 = 0) ∧
    (s.length % 4 = 3 → last_value s % 4 = 0)

instance : DecidablePred canonical := fun s => by unfold canonical; infer_instance

end jwt

open jwt jwt.detail


namespace jwt

/-! ## The codec -/

theorem b64_index_tbl (i : Nat) (h : i < 64) : b64_index (tbl i) = (i : Int) := by
  have key : ∀ j : Fin 64, b64_index (tbl j.val) = (j.val : Int) := by decide
  exact key ⟨i, h⟩

theorem shl_or (a b i : Nat) (h : b < 2 ^ i) : (a <<< i) ||| b = a * 2 ^ i + b := by
  rw [Nat.shiftLeft_eq, Nat.mul_comm a, Nat.mul_add_lt_is_or h]

theorem shl_or_eq (x v : Nat) (hv : v < 64) :
    ((x <<< 6) % 2 ^ 32) ||| v = x * 64 % 2 ^ 32 + v := by
  have h1 : (x <<< 6) % 2 ^ 32 = (x % 2 ^ 26) <<< 6 := by
    simp only [Nat.shiftLeft_eq]; omega
  rw [h1, shl_or _ _ 6 (by omega)]
  omega

theorem group_eq (a b c : Nat) (hb : b < 256) (hc : c < 256) :
    (a <<< 16) ||| (b <<< 8) ||| c = a * 65536 + b * 256 + c := by
  have h1 : (a <<< 16) ||| (b <<< 8) = (a * 256 + b) <<< 8 := by
    rw [shl_or a (b <<< 8) 16 (by simp only [Nat.shiftLeft_eq]; omega)]
    simp only [Nat.shiftLeft_eq]; omega
  rw [h1, shl_or _ c 8 (by omega)]
  omega

theorem and63 (x : Nat) : x &&& 63 = x % 64 := Nat.and_pow_two_sub_one_eq_mod x 6

theorem and255 (x : Nat) : x &&& 255 = x % 256 := Nat.and_pow_two_sub_one_eq_mod x 8

theorem decode_loop_tbl (v : Nat) (hv : v < 64) (cs : Bytes) (B bits : Nat) (out : Bytes) :
    decode_loop (tbl v :: cs) B bits out =
      if 8 ≤ bits + 6 then
        decode_loop cs (B * 64 % 2 ^ 32 + v) (bits + 6 - 8)
          (out ++ [Fin.ofNat ((B * 64 % 2 ^ 32 + v) / 2 ^ (bits + 6 - 8) % 256)])
      else decode_loop cs (B * 64 % 2 ^ 32 + v) (bits + 6) out := by
  simp only [decode_loop, b64_index_tbl v hv, shl_or_eq _ _ hv, Int.toNat_ofNat,
    Nat.shiftRight_eq_div_pow, and255, ge_iff_le]
  have : ¬ ((v : Int) < 0) := by omega
  simp [this]

theorem fin_ofNat_eq (x : Nat) (d : Byte) (h : x % 256 = d.val) :
    (Fin.ofNat x : Byte) = d := Fin.ext h

/-- Decoding the encoder's output from any buffer content with no pending bits appends
the encoded octets to `out`. -/
theorem decode_loop_encode (data : Bytes) :
    ∀ (B : Nat) (out : Bytes),
      decode_loop (base64url_encode data) B 0 out = .ok (out ++ data) := by
  induction data using base64url_encode.induct with
  | case1 d0 d1 d2 rest ih =>
    intro B out
    have h0 := d0.isLt
    have h1 := d1.isLt
    have h2 := d2.isLt
    simp only [base64url_encode, group_eq d0.val d1.val d2.val h1 h2, and63,
      Nat.shiftRight_eq_div_pow]
    rw [decode_loop_tbl _ (by omega), if_neg (by omega),
      decode_loop_tbl _ (by omega), if_pos (by omega),
      decode_loop_tbl _ (by omega), if_pos (by omega),
      decode_loop_tbl _ (by omega), if_pos (by omega)]
    rw [fin_ofNat_eq _ d0 (by omega), fin_ofNat_eq _ d1 (by omega),
      fin_ofNat_eq _ d2 (by omega)]
    simp only [Nat.reduceAdd, Nat.reduceSub]
    rw [ih]
    simp
  | case2 d0 =>
    intro B out
    have h0 := d0.isLt
    simp only [base64url_encode, Nat.shiftLeft_eq, and63, Nat.shiftRight_eq_div_pow]
    rw [decode_loop_tbl _ (by omega), if_neg (by omega),
      decode_loop_tbl _ (by omega), if_pos (by omega)]
    rw [fin_ofNat_eq _ d0 (by omega)]
    simp [decode_loop]
  | case3 d0 d1 =>
    intro B out
    have h0 := d0.isLt
    have h1 := d1.isLt
    have hn : (d0.val <<< 16) ||| (d1.val <<< 8) = d0.val * 65536 + d1.val * 256 := by
      have := group_eq d0.val d1.val 0 h1 (by omega)
      simpa using this
    simp only [base64url_encode, hn, and63, Nat.shiftRight_eq_div_pow]
    rw [decode_loop_tbl _ (by omega), if_neg (by omega),
      decode_loop_tbl _ (by omega), if_pos (by omega),
      decode_loop_tbl _ (by omega), if_pos (by omega)]
    rw [fin_ofNat_eq _ d0 (by omega), fin_ofNat_eq _ d1 (by omega)]
    simp [decode_loop]
  | case4 =>
    intro B out
    simp [base64url_encode, decode_loop]

theorem decode_encode (b : Bytes) : base64url_decode (base64url_encode b) = .ok b := by
  simpa [base64url_decode] using decode_loop_encode b 0 []

/-! ## Locating the separators -/

theorem find_at_append (ch : Byte) (h r : Bytes) (hh : ch ∉ h) (i : Nat) :
    find_at ch (h ++ ch :: r) i = some (i + h.length) := by
  induction h generalizing i with
  | nil => simp [find_at]
  | cons c cs ih =>
    have hc : c ≠ ch := fun e => hh (by simp [e])
    have hcs : ch ∉ cs := fun e => hh (by simp [e])
    simp only [List.cons_append, find_at, if_neg hc, List.length_cons, List.append_eq]
    rw [ih hcs (i + 1), Nat.add_assoc, Nat.add_comm 1]

theorem find_at_none (ch : Byte) (s : Bytes) (hs : ch ∉ s) (i : Nat) :
    find_at ch s i = none := by
  induction s generalizing i with
  | nil => rfl
  | cons c cs ih =>
    have hc : c ≠ ch := fun e => hs (by simp [e])
    have hcs : ch ∉ cs := fun e => hs (by simp [e])
    simp only [find_at, if_neg hc, ih hcs]

theorem drop_succ_append (h r : Bytes) (c : Byte) :
    (h ++ c :: r).drop (h.length + 1) = r := by
  induction h with
  | nil => rfl
  | cons x xs ih => simp

theorem find_first (h r : Bytes) (hh : dot ∉ h) :
    find (h ++ dot :: r) dot 0 = some h.length := by
  simp [find, find_at_append dot h r hh]

theorem find_first_none (s : Bytes) (hs : dot ∉ s) : find s dot 0 = none := by
  simp [find, find_at_none dot s hs]

theorem find_second (h p r : Bytes) (hp : dot ∉ p) :
    find (h ++ dot :: (p ++ dot :: r)) dot (h.length + 1) = some (h.length + 1 + p.length) := by
  simp only [find, drop_succ_append, find_at_append dot p r hp]

theorem find_second_none (h p : Bytes) (hp : dot ∉ p) :
    find (h ++ dot :: p) dot (h.length + 1) = none := by
  simp only [find, drop_succ_append, find_at_none dot p hp]

/-- Every text has one of three shapes: no separator, exactly one, or a first and a
second separator followed by anything. -/
theorem token_shape (t : Bytes) :
    dot ∉ t ∨ (∃ h p, t = h ++ dot :: p ∧ dot ∉ h ∧ dot ∉ p) ∨
      ∃ h p r, t = h ++ dot :: (p ++ dot :: r) ∧ dot ∉ h ∧ dot ∉ p := by
  have split : ∀ s : Bytes, dot ∉ s ∨ ∃ h r, s = h ++ dot :: r ∧ dot ∉ h := by
    intro s
    by_cases hs : dot ∈ s
    · obtain ⟨h, r, e, hh⟩ := List.eq_append_cons_of_mem hs
      exact Or.inr ⟨h, r, e, hh⟩
    · exact Or.inl hs
  rcases split t with h0 | ⟨h, r, e, hh⟩
  · exact Or.inl h0
  · rcases split r with h1 | ⟨p, r2, e2, hp⟩
    · exact Or.inr (Or.inl ⟨h, r, e, hh, h1⟩)
    · exact Or.inr (Or.inr ⟨h, p, r2, by rw [e, e2], hh, hp⟩)

/-! ## The alphabet -/

theorem b64_index_neg_iff (c : Byte) : b64_index c < 0 ↔ ¬ inAlphabet c := by
  unfold b64_index inAlphabet
  split_ifs <;> omega

theorem tbl_inAlphabet (i : Nat) (h : i < 64) : inAlphabet (tbl i) := by
  have key : ∀ j : Fin 64, inAlphabet (tbl j.val) := by decide
  exact key ⟨i, h⟩

theorem encode_inAlphabet (b : Bytes) : ∀ c ∈ base64url_encode b, inAlphabet c := by
  induction b using base64url_encode.induct with
  | case1 d0 d1 d2 rest ih =>
    intro c hc
    simp only [base64url_encode, and63, List.mem_cons] at hc
    rcases hc with h | h | h | h | h
    · exact h ▸ tbl_inAlphabet _ (Nat.mod_lt _ (by decide))
    · exact h ▸ tbl_inAlphabet _ (Nat.mod_lt _ (by decide))
    · exact h ▸ tbl_inAlphabet _ (Nat.mod_lt _ (by decide))
    · exact h ▸ tbl_inAlphabet _ (Nat.mod_lt _ (by decide))
    · exact ih c h
  | case2 d0 =>
    intro c hc
    simp only [base64url_encode, and63, List.mem_cons, List.mem_singleton] at hc
    rcases hc with h | h | h
    · exact h ▸ tbl_inAlphabet _ (Nat.mod_lt _ (by decide))
    · exact h ▸ tbl_inAlphabet _ (Nat.mod_lt _ (by decide))
    · cases h
  | case3 d0 d1 =>
    intro c hc
    simp only [base64url_encode, and63, List.mem_cons, List.mem_singleton] at hc
    rcases hc with h | h | h | h
    · exact h ▸ tbl_inAlphabet _ (Nat.mod_lt _ (by decide))
    · exact h ▸ tbl_inAlphabet _ (Nat.mod_lt _ (by decide))
    · exact h ▸ tbl_inAlphabet _ (Nat.mod_lt _ (by decide))
    · cases h
  | case4 => intro c hc; cases hc

theorem dot_not_inAlphabet : ¬ inAlphabet dot := by decide

set_option maxRecDepth 20000 in
theorem inAlphabet_iff_mem_table : ∀ c : Byte, inAlphabet c ↔ c ∈ b64_table := by decide

theorem not_inAlphabet_samples : ∀ c ∈ lit "=+/ \t\n\r.", ¬ inAlphabet c := by
  intro c hc
  simp only [lit, String.toList, List.map, List.mem_cons, List.mem_singleton] at hc
  rcases hc with h | h | h | h | h | h | h | h | h
  all_goals first | (subst h; decide) | cases h

theorem dot_not_mem_encode (b : Bytes) : dot ∉ base64url_encode b :=
  fun h => dot_not_inAlphabet (encode_inAlphabet b dot h)

/-- The decoder loop fails exactly when some remaining character is outside the
alphabet, whatever the loop state; the only error it raises is `invalidEncoding`. -/
theorem decode_loop_error_iff (s : Bytes) :
    ∀ (B bits : Nat) (out : Bytes) (e : Error),
      decode_loop s B bits out = .error e ↔ (e = .invalidEncoding ∧ ∃ c ∈ s, ¬ inAlphabet c) := by
  induction s with
  | nil => intro B bits out e; simp [decode_loop]
  | cons c cs ih =>
    intro B bits out e
    by_cases hc : b64_index c < 0
    · have hna := (b64_index_neg_iff c).1 hc
      simp only [decode_loop, if_pos hc, Except.error.injEq]
      constructor
      · intro h; exact ⟨h.symm, c, by simp, hna⟩
      · intro h; exact h.1.symm
    · have ha : inAlphabet c := by
        by_contra h; exact hc ((b64_index_neg_iff c).2 h)
      simp only [decode_loop, if_neg hc]
      split_ifs
      · rw [ih]; simp [ha]
      · rw [ih]; simp [ha]

theorem decode_error_iff (s : Bytes) (e : Error) :
    base64url_decode s = .error e ↔ (e = .invalidEncoding ∧ ∃ c ∈ s, ¬ inAlphabet c) :=
  decode_loop_error_iff s 0 0 [] e

theorem decode_ok_of_alphabet (s : Bytes) (h : ∀ c ∈ s, inAlphabet c) :
    ∃ r, base64url_decode s = .ok r := by
  cases hd : base64url_decode s with
  | ok r => exact ⟨r, rfl⟩
  | error e =>
    obtain ⟨_, c, hc, hn⟩ := (decode_error_iff s e).1 hd
    exact absurd (h c hc) hn

/-! ## The comparison loop -/

theorem verify_loop_iff (d e : Bytes) (n : Nat) :
    ∀ i, verify_loop d e n i = true ↔ ∀ j, i ≤ j → j < i + n → d.getD j 0 = e.getD j 0 := by
  induction n with
  | zero => intro i; simp only [verify_loop, true_iff]; intro j h1 h2; omega
  | succ n ih =>
    intro i
    by_cases h : d.getD i 0 = e.getD i 0
    · simp only [verify_loop, ne_eq, h, not_true_eq_false, if_false, ih]
      constructor
      · intro H j h1 h2
        by_cases hj : j = i
        · rw [hj]; exact h
        · exact H j (by omega) (by omega)
      · intro H j h1 h2
        exact H j (by omega) (by omega)
    · simp only [verify_loop, ne_eq, h, not_false_eq_true, if_true]
      constructor
      · intro H; cases H
      · intro H; exact absurd (H i (Nat.le_refl i) (by omega)) h

theorem verify_loop_eq (d e : Bytes) (hlen : d.length = e.length) :
    verify_loop d e e.length 0 = decide (d = e) := by
  by_cases hde : d = e
  · rw [decide_eq_true hde, verify_loop_iff]
    intro j _ _; rw [hde]
  · rw [decide_eq_false hde]
    cases hv : verify_loop d e e.length 0 with
    | false => rfl
    | true =>
      exfalso; apply hde
      rw [verify_loop_iff] at hv
      apply List.ext_getElem hlen
      intro j h1 h2
      have := hv j (Nat.zero_le j) (by omega)
      simpa [List.getD_eq_getElem?_getD, List.getElem?_eq_getElem, h1, h2] using this

/-! ## The token operations on each shape of text -/

theorem take_append_cons (h p r : Bytes) (c : Byte) :
    (h ++ c :: (p ++ c :: r)).take (h.length + 1 + p.length) = h ++ c :: p := by
  induction h with
  | nil =>
    simp only [List.nil_append, List.length_nil, Nat.zero_add, Nat.add_comm 1,
      List.take_succ_cons, List.take_left]
  | cons x xs ih =>
    have e : (x :: xs).length + 1 + p.length = (xs.length + 1 + p.length) + 1 := by
      simp only [List.length_cons]; omega
    rw [e, List.cons_append, List.take_succ_cons, ih, List.cons_append]

theorem verify_with_no_dot (decode : Bytes → Except Error Bytes) (hmac : Bytes → Bytes → Bytes)
    (t secret : Bytes) (ht : dot ∉ t) : verify_with decode hmac t secret = .ok false := by
  simp only [verify_with, find_first_none t ht]

theorem verify_with_one_dot (decode : Bytes → Except Error Bytes)
    (hmac : Bytes → Bytes → Bytes) (h p secret : Bytes) (hh : dot ∉ h) (hp : dot ∉ p) :
    verify_with decode hmac (h ++ dot :: p) secret = .ok false := by
  simp only [verify_with, find_first h p hh, find_second_none h p hp]

/-- With both separators present, `verify` decodes the text after the second one and
compares it with the digest of the text before it. -/
theorem verify_with_two_dots (decode : Bytes → Except Error Bytes)
    (hmac : Bytes → Bytes → Bytes) (h p r secret : Bytes) (hh : dot ∉ h) (hp : dot ∉ p) :
    verify_with decode hmac (h ++ dot :: (p ++ dot :: r)) secret =
      match decode r with
      | .error e => .error e
      | .ok d => .ok (decide (d = hmac secret (h ++ dot :: p))) := by
  have hdrop : (h ++ dot :: (p ++ dot :: r)).drop (h.length + 1 + p.length + 1) = r := by
    have e1 : h ++ dot :: (p ++ dot :: r) = (h ++ dot :: p) ++ dot :: r := by simp
    have e2 : h.length + 1 + p.length + 1 = (h ++ dot :: p).length + 1 := by
      simp only [List.length_append, List.length_cons]; omega
    rw [e1, e2]; exact drop_succ_append _ _ _
  have hlen : ¬ (h.length + 1 + p.length + 1 > (h ++ dot :: (p ++ dot :: r)).length) := by
    simp only [List.length_append, List.length_cons]; omega
  simp only [verify_with, find_first h _ hh, find_second h p r hp, substr, substr_from,
    Nat.not_lt_zero, gt_iff_lt, if_false, List.drop_zero, take_append_cons, hdrop,
    bind, Except.bind, if_neg hlen]
  cases hd : decode r with
  | error e => rfl
  | ok d =>
    simp only [pure, Except.pure]
    by_cases hl : d.length = (hmac secret (h ++ dot :: p)).length
    · simp only [ne_eq, hl, not_true_eq_false, if_false, verify_loop_eq d _ hl]
    · have hne : d ≠ hmac secret (h ++ dot :: p) := fun e => hl (by rw [e])
      simp only [ne_eq, hl, not_false_eq_true, if_true, decide_eq_false hne]

theorem dwv_no_dot (t : Bytes) (ht : dot ∉ t) :
    decode_without_verify t = .error .malformedToken := by
  simp only [decode_without_verify, find_first_none t ht]

theorem dwv_one_dot (h p : Bytes) (hh : dot ∉ h) (hp : dot ∉ p) :
    decode_without_verify (h ++ dot :: p) = .error .malformedToken := by
  simp only [decode_without_verify, find_first h p hh, find_second_none h p hp]

/-- With both separators present, `decode_without_verify` is the decoder applied to
the text between them. -/
theorem dwv_two_dots (h p r : Bytes) (hh : dot ∉ h) (hp : dot ∉ p) :
    decode_without_verify (h ++ dot :: (p ++ dot :: r)) = base64url_decode p := by
  have hlen : ¬ (h.length + 1 > (h ++ dot :: (p ++ dot :: r)).length) := by
    simp only [List.length_append, List.length_cons]; omega
  have hsub : h.length + 1 + p.length - h.length - 1 = p.length := by omega
  simp only [decode_without_verify, find_first h _ hh, find_second h p r hp, substr,
    if_neg hlen, drop_succ_append, hsub, List.take_left, bind, Except.bind, pure, Except.pure]
  cases base64url_decode p <;> rfl

theorem count_dot_of_not_mem (t : Bytes) (ht : dot ∉ t) : t.count dot = 0 :=
  List.count_eq_zero.2 ht

theorem encode_shape (hmac : Bytes → Bytes → Bytes) (payload secret : Bytes) :
    encode hmac payload secret =
      base64url_encode header ++ dot ::
        (base64url_encode payload ++ dot ::
          base64url_encode
            (hmac secret (base64url_encode header ++ dot :: base64url_encode payload))) := by
  simp [encode]

theorem count_two_dots (h p r : Bytes) : 2 ≤ (h ++ dot :: (p ++ dot :: r)).count dot := by
  simp only [List.count_append, List.count_cons_self]; omega

theorem count_one_dot (h p : Bytes) (hh : dot ∉ h) (hp : dot ∉ p) :
    (h ++ dot :: p).count dot = 1 := by
  simp only [List.count_append, List.count_cons_self, count_dot_of_not_mem h hh,
    count_dot_of_not_mem p hp]

/-! ## Tampering with one bit -/

theorem flip_at_append_left (a b : Bytes) (i k : Nat) (hi : i < a.length) :
    flip_at (a ++ b) i k = flip_at a i k ++ b := by
  simp only [flip_at, List.set_append_left _ _ hi, List.getD_append _ _ _ _ hi]

theorem flip_at_append_right (a b : Bytes) (i k : Nat) (hi : a.length ≤ i) :
    flip_at (a ++ b) i k = a ++ flip_at b (i - a.length) k := by
  simp only [flip_at, List.set_append_right _ _ hi, List.getD_append_right _ _ _ _ hi]

theorem flip_at_cons_succ (c : Byte) (b : Bytes) (j k : Nat) :
    flip_at (c :: b) (j + 1) k = c :: flip_at b j k := rfl

theorem mem_flip_at (t : Bytes) (i k : Nat) (y : Byte) (hy : y ∈ flip_at t i k) :
    y ∈ t ∨ y = flip_bit (t.getD i 0) k :=
  List.mem_or_eq_of_mem_set hy

theorem encode_header_eq :
    base64url_encode header = lit "eyJhbGciOiJIUzI1NiIsInR5cCI6IkpXVCJ9" := by decide

/-- Where a one-bit change inside the header or payload segment does not produce a
`'.'`, and the keyed hash tells the altered signing input from the original one,
`verify` with the original secret returns `false`. -/
theorem tamper_detected (hmac : Bytes → Bytes → Bytes) (p s : Bytes) (i k : Nat)
    (hi : i < (base64url_encode header ++ dot :: base64url_encode p).length)
    (hsep : i ≠ (base64url_encode header).length)
    (hnd : flip_bit ((base64url_encode header ++ dot :: base64url_encode p).getD i 0) k ≠ dot)
    (hne : hmac s (flip_at (base64url_encode header ++ dot :: base64url_encode p) i k) ≠
      hmac s (base64url_encode header ++ dot :: base64url_encode p)) :
    verify hmac (flip_at (encode hmac p s) i k) s = .ok false := by
  have hshape : ∃ h2 p2, flip_at (base64url_encode header ++ dot :: base64url_encode p) i k
      = h2 ++ dot :: p2 ∧ dot ∉ h2 ∧ dot ∉ p2 := by
    by_cases hlt : i < (base64url_encode header).length
    · refine ⟨flip_at (base64url_encode header) i k, base64url_encode p,
        flip_at_append_left _ _ i k hlt, ?_, dot_not_mem_encode p⟩
      intro hmem
      rcases mem_flip_at _ _ _ _ hmem with h1 | h1
      · exact dot_not_mem_encode header h1
      · rw [List.getD_append _ _ _ _ hlt] at hnd
        exact hnd h1.symm
    · have hge : (base64url_encode header).length ≤ i := Nat.le_of_not_lt hlt
      obtain ⟨j, hj⟩ : ∃ j, i - (base64url_encode header).length = j + 1 :=
        ⟨i - (base64url_encode header).length - 1, by omega⟩
      refine ⟨base64url_encode header, flip_at (base64url_encode p) j k, ?_,
        dot_not_mem_encode header, ?_⟩
      · rw [flip_at_append_right _ _ i k hge, hj, flip_at_cons_succ]
      · intro hmem
        rcases mem_flip_at _ _ _ _ hmem with h1 | h1
        · exact dot_not_mem_encode p h1
        · rw [List.getD_append_right _ _ _ _ hge, hj, List.getD_cons_succ] at hnd
          exact hnd h1.symm
  obtain ⟨h2, p2, e, hh2, hp2⟩ := hshape
  have henc : encode hmac p s =
      (base64url_encode header ++ dot :: base64url_encode p) ++ dot ::
        base64url_encode (hmac s (base64url_encode header ++ dot :: base64url_encode p)) := by
    rw [encode_shape]; simp
  rw [henc, flip_at_append_left _ _ i k hi]
  rw [e] at hne ⊢
  have : (h2 ++ dot :: p2) ++ dot ::
      base64url_encode (hmac s (base64url_encode header ++ dot :: base64url_encode p))
      = h2 ++ dot :: (p2 ++ dot ::
        base64url_encode (hmac s (base64url_encode header ++ dot :: base64url_encode p))) := by
    simp
  rw [this, verify, verify_with_two_dots _ _ _ _ _ _ hh2 hp2, decode_encode]
  simp [Ne.symm hne]

theorem tamper_detected_example :
    verify (fun _ m => m) (flip_at (encode (fun _ m => m) (lit "hi") (lit "k")) 0 0) (lit "k")
      = .ok false :=
  tamper_detected (fun _ m => m) (lit "hi") (lit "k") 0 0 (by decide) (by decide) (by decide)
    (by decide)

/-! ## The claims -/

/-- C1. Codec round trip: for every byte sequence `b`, the empty one included,
`base64url_decode (base64url_encode b)` succeeds and returns exactly `b`. -/
theorem codec_round_trip (b : Bytes) :
    base64url_decode (base64url_encode b) = .ok b ∧ base64url_decode (base64url_encode []) = .ok [] :=
  ⟨decode_encode b, decode_encode []⟩

/-- C2. Sign/verify correctness: for every keyed hash `hmac`, payload `p` and secret
`s`, `verify (encode p s) s` returns `true`; it neither returns `false` nor raises. -/
theorem verify_encode (hmac : Bytes → Bytes → Bytes) (p s : Bytes) :
    verify hmac (encode hmac p s) s = .ok true := by
  rw [verify, encode_shape,
    verify_with_two_dots _ _ _ _ _ _ (dot_not_mem_encode header) (dot_not_mem_encode p),
    decode_encode]
  simp

/-- C4. Unverified decode round trip: for every keyed hash `hmac`, payload `p` and
secret `s`, `decode_without_verify (encode p s)` succeeds and returns exactly `p`. -/
theorem decode_without_verify_encode (hmac : Bytes → Bytes → Bytes) (p s : Bytes) :
    decode_without_verify (encode hmac p s) = .ok p := by
  rw [encode_shape, dwv_two_dots _ _ _ (dot_not_mem_encode header) (dot_not_mem_encode p),
    decode_encode]

/-- C6. Wrong-secret rejection: when the keyed hash separates the secrets `s1` and `s2`
on the signing input of the token (which forces `s1 ≠ s2`), `verify (encode p s1) s2`
returns `false`. -/
theorem wrong_secret_rejected (hmac : Bytes → Bytes → Bytes) (p s1 s2 : Bytes)
    (hne : hmac s1 (base64url_encode header ++ dot :: base64url_encode p) ≠
      hmac s2 (base64url_encode header ++ dot :: base64url_encode p)) :
    verify hmac (encode hmac p s1) s2 = .ok false := by
  rw [verify, encode_shape,
    verify_with_two_dots _ _ _ _ _ _ (dot_not_mem_encode header) (dot_not_mem_encode p),
    decode_encode]
  simp [hne]

theorem wrong_secret_rejected_witness :
    verify (fun k _ => k) (encode (fun k _ => k) (lit "hi") (lit "a")) (lit "b") = .ok false :=
  wrong_secret_rejected (fun k _ => k) (lit "hi") (lit "a") (lit "b") (by decide)

/-- C7. Malformed-token safety: on every text with zero or exactly one `'.'`, and for
every secret, `verify` returns `false` without raising; the result is the same
whatever function stands for the decoder, so the decoder is not consulted. -/
theorem verify_malformed (hmac : Bytes → Bytes → Bytes) (token secret : Bytes)
    (hcount : token.count dot ≤ 1) :
    verify hmac token secret = .ok false ∧
      ∀ decode : Bytes → Except Error Bytes,
        verify_with decode hmac token secret = .ok false := by
  have key : ∀ decode : Bytes → Except Error Bytes,
      verify_with decode hmac token secret = .ok false := by
    intro decode
    rcases token_shape token with h0 | ⟨h, p, e, hh, hp⟩ | ⟨h, p, r, e, _, _⟩
    · exact verify_with_no_dot decode hmac token secret h0
    · rw [e]; exact verify_with_one_dot decode hmac h p secret hh hp
    · have := count_two_dots h p r
      rw [← e] at this; omega
  exact ⟨key _, key⟩

theorem verify_malformed_witness :
    verify (fun k _ => k) (lit "=.=") (lit "k") = .ok false ∧
      ∀ decode : Bytes → Except Error Bytes,
        verify_with decode (fun k _ => k) (lit "=.=") (lit "k") = .ok false :=
  verify_malformed (fun k _ => k) (lit "=.=") (lit "k") (by decide)

/-- C3. The claim says `verify` swallows a decoder failure into `false`; the code has
no handler around `base64url_decode`, so on the tokens `a.b.=` and `a.b.c.d` (two
separators, then a character outside the alphabet) `verify` raises the decoder's
`invalid base64url character` error for every keyed hash and every secret. -/
theorem verify_raises_on_invalid_signature (hmac : Bytes → Bytes → Bytes) (secret : Bytes) :
    verify hmac (lit "a.b.=") secret = .error .invalidEncoding ∧
      verify hmac (lit "a.b.c.d") secret = .error .invalidEncoding := by
  have e1 : lit "a.b.=" = lit "a" ++ dot :: (lit "b" ++ dot :: lit "=") := by decide
  have e2 : lit "a.b.c.d" = lit "a" ++ dot :: (lit "b" ++ dot :: lit "c.d") := by decide
  have d1 : base64url_decode (lit "=") = .error .invalidEncoding := by decide
  have d2 : base64url_decode (lit "c.d") = .error .invalidEncoding := by decide
  constructor
  · rw [verify, e1, verify_with_two_dots _ _ _ _ _ _ (by decide) (by decide), d1]
  · rw [verify, e2, verify_with_two_dots _ _ _ _ _ _ (by decide) (by decide), d2]

/-- C8. Strict decoding: `base64url_decode s` fails, and then with the invalid-encoding
error, exactly when `s` holds a character outside the alphabet `A`-`Z`, `a`-`z`,
`0`-`9`, `-`, `_` (the characters of `b64_table`); `=`, `+`, `/`, blank, tab, line
feed, carriage return, `.` and every octet from `0x80` up are outside it; decoding
`a===` fails. -/
theorem decode_strict :
    (∀ s : Bytes, base64url_decode s = .error .invalidEncoding ↔ ∃ c ∈ s, ¬ inAlphabet c) ∧
    (∀ (s : Bytes) (e : Error), base64url_decode s = .error e → e = .invalidEncoding) ∧
    (∀ c : Byte, inAlphabet c ↔ c ∈ b64_table) ∧
    (∀ c ∈ lit "=+/ \t\n\r.", ¬ inAlphabet c) ∧
    (∀ c : Byte, 128 ≤ c.val → ¬ inAlphabet c) ∧
    base64url_decode (lit "a===") = .error .invalidEncoding := by
  refine ⟨?_, ?_, ?_, ?_, ?_, ?_⟩
  · intro s
    rw [decode_error_iff]; simp
  · intro s e h
    exact ((decode_error_iff s e).1 h).1
  · exact inAlphabet_iff_mem_table
  · exact not_inAlphabet_samples
  · intro c hc h
    unfold inAlphabet at h
    omega
  · decide

/-- C9. The function `decode_without_verify` fails with the malformed-token error
exactly when the token has fewer than two `'.'`; the test precedes decoding, so
`onlyonepart` and `=.=` both fail with the malformed-token error and not with the
invalid-encoding one. -/
theorem decode_without_verify_malformed_iff :
    (∀ token : Bytes,
      decode_without_verify token = .error .malformedToken ↔ token.count dot < 2) ∧
    decode_without_verify (lit "onlyonepart") = .error .malformedToken ∧
    decode_without_verify (lit "=.=") = .error .malformedToken := by
  refine ⟨?_, by decide, by decide⟩
  intro token
  rcases token_shape token with h0 | ⟨h, p, e, hh, hp⟩ | ⟨h, p, r, e, hh, hp⟩
  · simp [dwv_no_dot token h0, count_dot_of_not_mem token h0]
  · rw [e]
    simp [dwv_one_dot h p hh hp, count_one_dot h p hh hp]
  · have h2 := count_two_dots h p r
    rw [e, dwv_two_dots h p r hh hp]
    constructor
    · intro hd
      have := ((decode_error_iff p _).1 hd).1
      cases this
    · intro hc; omega

/-- C10. Every token with at least two `'.'` splits as `h.p.r` with no `'.'` in `h` or
`p`, and `decode_without_verify` has exactly the outcome of decoding `p`: the decoded
octets, or the invalid-encoding error exactly when `p` has a character outside the
alphabet.  Any other token with the same text between its first two separators gives
the same result, whatever its header segment and whatever follows the second
separator. -/
theorem decode_without_verify_payload (token : Bytes) (hcount : 2 ≤ token.count dot) :
    ∃ h p r, token = h ++ dot :: (p ++ dot :: r) ∧ dot ∉ h ∧ dot ∉ p ∧
      decode_without_verify token = base64url_decode p ∧
      (decode_without_verify token = .error .invalidEncoding ↔ ∃ c ∈ p, ¬ inAlphabet c) ∧
      ((∀ c ∈ p, inAlphabet c) → ∃ bytes, decode_without_verify token = .ok bytes) ∧
      ∀ h2 r2 : Bytes, dot ∉ h2 →
        decode_without_verify (h2 ++ dot :: (p ++ dot :: r2)) = decode_without_verify token := by
  rcases token_shape token with h0 | ⟨h, p, e, hh, hp⟩ | ⟨h, p, r, e, hh, hp⟩
  · rw [count_dot_of_not_mem token h0] at hcount; omega
  · rw [e, count_one_dot h p hh hp] at hcount; omega
  · refine ⟨h, p, r, e, hh, hp, ?_, ?_, ?_, ?_⟩
    · rw [e, dwv_two_dots h p r hh hp]
    · rw [e, dwv_two_dots h p r hh hp, decode_error_iff]; simp
    · intro hall
      rw [e, dwv_two_dots h p r hh hp]
      exact decode_ok_of_alphabet p hall
    · intro h2 r2 hh2
      rw [e, dwv_two_dots h p r hh hp, dwv_two_dots h2 p r2 hh2 hp]

theorem decode_without_verify_payload_witness :
    ∃ h p r, lit "x.TWFu.=" = h ++ dot :: (p ++ dot :: r) ∧ dot ∉ h ∧ dot ∉ p ∧
      decode_without_verify (lit "x.TWFu.=") = base64url_decode p ∧
      (decode_without_verify (lit "x.TWFu.=") = .error .invalidEncoding ↔
        ∃ c ∈ p, ¬ inAlphabet c) ∧
      ((∀ c ∈ p, inAlphabet c) → ∃ bytes, decode_without_verify (lit "x.TWFu.=") = .ok bytes) ∧
      ∀ h2 r2 : Bytes, dot ∉ h2 →
        decode_without_verify (h2 ++ dot :: (p ++ dot :: r2)) =
          decode_without_verify (lit "x.TWFu.=") :=
  decode_without_verify_payload (lit "x.TWFu.=") (by decide)

/-- C5. The claim says a one-bit change in the header or payload segment makes `verify`
return `false`.  Character 21 of the header segment is `n`; inverting its bit 6 gives
`'.'`, the text after the new second separator then holds a `'.'`, and `verify`
raises the decoder's error instead of returning `false`, for every keyed hash,
payload and secret. -/
theorem tampered_header_raises (hmac : Bytes → Bytes → Bytes) (p s : Bytes) :
    21 < (base64url_encode header).length ∧
      (encode hmac p s).getD 21 0 = 110 ∧ flip_bit 110 6 = dot ∧
      verify hmac (flip_at (encode hmac p s) 21 6) s = .error .invalidEncoding := by
  have hlen : 21 < (base64url_encode header).length := by decide
  have hflip : flip_at (base64url_encode header) 21 6 =
      lit "eyJhbGciOiJIUzI1NiIsI" ++ dot :: lit "R5cCI6IkpXVCJ9" := by decide
  refine ⟨hlen, ?_, by decide, ?_⟩
  · rw [encode_shape, List.getD_append _ _ _ _ hlen]; decide
  · rw [encode_shape, flip_at_append_left _ _ 21 6 hlen, hflip, List.append_assoc,
      List.cons_append, verify,
      verify_with_two_dots _ _ _ _ _ _ (by decide) (by decide)]
    have hbad : base64url_decode (base64url_encode p ++ dot :: base64url_encode
        (hmac s (base64url_encode header ++ dot :: base64url_encode p)))
        = .error .invalidEncoding := by
      rw [decode_error_iff]
      exact ⟨rfl, dot, by simp, dot_not_inAlphabet⟩
    rw [hbad]

/-! ## Wire format, acceptance, alphabet and length -/

theorem count_dot_encode (b : Bytes) : (base64url_encode b).count dot = 0 :=
  count_dot_of_not_mem _ (dot_not_mem_encode b)

theorem encode_length (b : Bytes) :
    (base64url_encode b).length =
      4 * (b.length / 3) + (if b.length % 3 = 1 then 2 else if b.length % 3 = 2 then 3 else 0) := by
  induction b using base64url_encode.induct with
  | case1 d0 d1 d2 rest ih =>
    simp only [base64url_encode, List.length_cons, ih]
    have e1 : (rest.length + 1 + 1 + 1) / 3 = rest.length / 3 + 1 := by omega
    have e2 : (rest.length + 1 + 1 + 1) % 3 = rest.length % 3 := by omega
    simp only [e1, e2]
    split_ifs <;> omega
  | case2 d0 => simp [base64url_encode]
  | case3 d0 d1 => simp [base64url_encode]
  | case4 => simp [base64url_encode]

/-- C11. Wire format: `encode p s` is `H.B(p).B(hmac(s, H.B(p)))` with `B` the encoder and
`H` the encoded literal header, the text `eyJhbGciOiJIUzI1NiIsInR5cCI6IkpXVCJ9`; the
token holds exactly two `'.'`, one after the header segment and one after the payload
segment. -/
theorem encode_wire_format (hmac : Bytes → Bytes → Bytes) (p s : Bytes) :
    encode hmac p s =
      base64url_encode header ++ lit "." ++ base64url_encode p ++ lit "." ++
        base64url_encode (hmac s (base64url_encode header ++ lit "." ++ base64url_encode p)) ∧
    base64url_encode header = lit "eyJhbGciOiJIUzI1NiIsInR5cCI6IkpXVCJ9" ∧
    (encode hmac p s).count dot = 2 ∧
    dot ∉ base64url_encode header ∧ dot ∉ base64url_encode p ∧
    dot ∉ base64url_encode (hmac s (base64url_encode header ++ lit "." ++ base64url_encode p)) := by
  have hdot : lit "." = [dot] := by decide
  refine ⟨?_, encode_header_eq, ?_, dot_not_mem_encode _, dot_not_mem_encode _,
    dot_not_mem_encode _⟩
  · rw [hdot]; rfl
  · rw [encode_shape]
    simp only [List.count_append, List.count_cons_self, count_dot_encode]

/-- C12. Characterisation of acceptance: on a token `h.p.r` (`h` and `p` free of `'.'`,
so the separators are its first two) whose text `r` after the second separator is
made of alphabet characters, `r` decodes to some octets `d`, and `verify` returns
`true` exactly when `d` equals `hmac s (h.p)`, that is same length and equal octets at
every index, and `false` otherwise.  The segment `h` is arbitrary: it is only hashed. -/
theorem verify_accepts_iff (hmac : Bytes → Bytes → Bytes) (h p r s : Bytes)
    (hh : dot ∉ h) (hp : dot ∉ p) (hr : ∀ c ∈ r, inAlphabet c) :
    ∃ d, base64url_decode r = .ok d ∧
      (verify hmac (h ++ dot :: (p ++ dot :: r)) s = .ok true ↔ d = hmac s (h ++ dot :: p)) ∧
      (verify hmac (h ++ dot :: (p ++ dot :: r)) s = .ok false ↔ d ≠ hmac s (h ++ dot :: p)) ∧
      (d = hmac s (h ++ dot :: p) ↔
        d.length = (hmac s (h ++ dot :: p)).length ∧
          ∀ i, i < d.length → d.getD i 0 = (hmac s (h ++ dot :: p)).getD i 0) := by
  obtain ⟨d, hd⟩ := decode_ok_of_alphabet r hr
  refine ⟨d, hd, ?_, ?_, ?_⟩
  · rw [verify, verify_with_two_dots _ _ _ _ _ _ hh hp, hd]; simp
  · rw [verify, verify_with_two_dots _ _ _ _ _ _ hh hp, hd]; simp
  · constructor
    · intro e; rw [e]; exact ⟨rfl, fun _ _ => rfl⟩
    · rintro ⟨hl, hall⟩
      have hv : verify_loop d (hmac s (h ++ dot :: p)) (hmac s (h ++ dot :: p)).length 0 = true := by
        rw [verify_loop_iff]
        intro j _ hj
        exact hall j (by omega)
      rw [verify_loop_eq d _ hl] at hv
      exact of_decide_eq_true hv

set_option maxRecDepth 4000 in
theorem verify_accepts_iff_witness :
    ∃ d, base64url_decode (lit "aw") = .ok d ∧
      (verify (fun k _ => k) (lit "x" ++ dot :: (lit "y" ++ dot :: lit "aw")) (lit "k") = .ok true ↔
        d = (fun k _ => k) (lit "k") (lit "x" ++ dot :: lit "y")) ∧
      (verify (fun k _ => k) (lit "x" ++ dot :: (lit "y" ++ dot :: lit "aw")) (lit "k") = .ok false ↔
        d ≠ (fun k _ => k) (lit "k") (lit "x" ++ dot :: lit "y")) ∧
      (d = (fun k _ => k) (lit "k") (lit "x" ++ dot :: lit "y") ↔
        d.length = ((fun k _ => k) (lit "k") (lit "x" ++ dot :: lit "y")).length ∧
          ∀ i, i < d.length →
            d.getD i 0 = ((fun k _ => k) (lit "k") (lit "x" ++ dot :: lit "y")).getD i 0) :=
  verify_accepts_iff (fun k _ => k) (lit "x") (lit "y") (lit "aw") (lit "k")
    (by decide) (by decide) (by decide)

/-- C14. Alphabet purity: every character of `base64url_encode b` is one of the 64
symbols `A`-`Z`, `a`-`z`, `0`-`9`, `-`, `_` of `b64_table`; none is `=`, `+`, `/` or
`.`. -/
theorem encode_alphabet_purity (b : Bytes) :
    (∀ c ∈ base64url_encode b, inAlphabet c ∧ c ∈ b64_table) ∧
      ∀ c ∈ lit "=+/.", c ∉ base64url_encode b := by
  constructor
  · intro c hc
    exact ⟨encode_inAlphabet b c hc, (inAlphabet_iff_mem_table c).1 (encode_inAlphabet b c hc)⟩
  · intro c hc hmem
    have ha := encode_inAlphabet b c hmem
    simp only [lit, String.toList, List.map, List.mem_cons, List.mem_singleton] at hc
    rcases hc with h | h | h | h | h
    all_goals first | (subst h; revert ha; decide) | cases h

/-- C15. Encoded length: for `n` input octets the encoder returns exactly
`4 * (n / 3)` characters plus `2` when `n % 3 = 1`, `3` when `n % 3 = 2` and none when
`n % 3 = 0`; so one octet after whole groups adds 2 characters and two octets add 3. -/
theorem encode_length_formula (b : Bytes) :
    (base64url_encode b).length =
        4 * (b.length / 3) +
          (if b.length % 3 = 1 then 2 else if b.length % 3 = 2 then 3 else 0) ∧
      (∀ x : Byte, b.length % 3 = 0 →
        (base64url_encode (b ++ [x])).length = (base64url_encode b).length + 2) ∧
      (∀ x y : Byte, b.length % 3 = 0 →
        (base64url_encode (b ++ [x, y])).length = (base64url_encode b).length + 3) := by
  refine ⟨encode_length b, ?_, ?_⟩
  · intro x h0
    rw [encode_length, encode_length b]
    simp only [List.length_append, List.length_singleton]
    have e1 : (b.length + 1) / 3 = b.length / 3 := by omega
    have e2 : (b.length + 1) % 3 = 1 := by omega
    rw [e1, e2, h0]; simp
  · intro x y h0
    rw [encode_length, encode_length b]
    simp only [List.length_append, List.length_cons, List.length_nil]
    have e1 : (b.length + (0 + 1 + 1)) / 3 = b.length / 3 := by omega
    have e2 : (b.length + (0 + 1 + 1)) % 3 = 2 := by omega
    rw [e1, e2, h0]; simp

/-! ## The decoder on alphabet characters -/

theorem b64_index_lt (c : Byte) : b64_index c < 64 := by
  have := c.isLt
  unfold b64_index
  split_ifs <;> omega

set_option maxRecDepth 20000 in
theorem tbl_b64_index : ∀ c : Byte, inAlphabet c → tbl (b64_index c).toNat = c := by decide

theorem b64_index_toNat_lt (c : Byte) : (b64_index c).toNat < 64 := by
  have := b64_index_lt c
  omega

theorem tbl_injective (i j : Nat) (hi : i < 64) (hj : j < 64) (h : tbl i = tbl j) : i = j := by
  have e := congrArg b64_index h
  rw [b64_index_tbl i hi, b64_index_tbl j hj] at e
  exact Int.ofNat.inj e

/-- One round of the decoder loop on an alphabet character, in arithmetic form. -/
theorem decode_loop_alpha (c : Byte) (hc : inAlphabet c) (cs : Bytes) (B bits : Nat)
    (out : Bytes) :
    decode_loop (c :: cs) B bits out =
      if 8 ≤ bits + 6 then
        decode_loop cs (B * 64 % 2 ^ 32 + (b64_index c).toNat) (bits + 6 - 8)
          (out ++ [Fin.ofNat
            ((B * 64 % 2 ^ 32 + (b64_index c).toNat) / 2 ^ (bits + 6 - 8) % 256)])
      else decode_loop cs (B * 64 % 2 ^ 32 + (b64_index c).toNat) (bits + 6) out := by
  have h := decode_loop_tbl (b64_index c).toNat (b64_index_toNat_lt c) cs B bits out
  rwa [tbl_b64_index c hc] at h

theorem decode_loop_length (s : Bytes) :
    ∀ (B bits : Nat) (out : Bytes), (∀ c ∈ s, inAlphabet c) → bits < 8 →
      ∃ r, decode_loop s B bits out = .ok r ∧
        r.length = out.length + (bits + 6 * s.length) / 8 := by
  induction s with
  | nil =>
    intro B bits out _ hb
    exact ⟨out, rfl, by simp only [List.length_nil]; omega⟩
  | cons c cs ih =>
    intro B bits out hs hb
    have hc : inAlphabet c := hs c (by simp)
    have hcs : ∀ x ∈ cs, inAlphabet x := fun x hx => hs x (by simp [hx])
    rw [decode_loop_alpha c hc]
    split_ifs with h8
    · obtain ⟨r, hr, hl⟩ := ih (B * 64 % 2 ^ 32 + (b64_index c).toNat) (bits + 6 - 8)
        (out ++ [Fin.ofNat
          ((B * 64 % 2 ^ 32 + (b64_index c).toNat) / 2 ^ (bits + 6 - 8) % 256)]) hcs (by omega)
      refine ⟨r, hr, ?_⟩
      rw [hl, List.length_append, List.length_singleton, List.length_cons]
      omega
    · obtain ⟨r, hr, hl⟩ := ih (B * 64 % 2 ^ 32 + (b64_index c).toNat) (bits + 6) out hcs
        (by omega)
      refine ⟨r, hr, ?_⟩
      rw [hl, List.length_cons]
      omega

/-- C16. Lenient length handling: a text of `n` alphabet characters, whatever `n`
(also `n % 4 = 1`), decodes without error to exactly `6 * n / 8` octets, the
`6 * n % 8 < 8` trailing bits being dropped; the empty text decodes to no octets. -/
theorem decode_lenient_length (s : Bytes) (hs : ∀ c ∈ s, inAlphabet c) :
    (∃ r, base64url_decode s = .ok r ∧ r.length = 6 * s.length / 8) ∧
      6 * s.length % 8 < 8 ∧ base64url_decode [] = .ok [] := by
  refine ⟨?_, Nat.mod_lt _ (by decide), rfl⟩
  obtain ⟨r, hr, hl⟩ := decode_loop_length s 0 0 [] hs (by decide)
  exact ⟨r, hr, by simpa using hl⟩

set_option maxRecDepth 4000 in
theorem decode_lenient_length_witness :
    (∃ r, base64url_decode (lit "TWFuA") = .ok r ∧ r.length = 6 * (lit "TWFuA").length / 8) ∧
      6 * (lit "TWFuA").length % 8 < 8 ∧ base64url_decode [] = .ok [] :=
  decode_lenient_length (lit "TWFuA") (by decide)

/-! ## The 32-bit buffer against an unbounded one -/

theorem bits_after_lt (s : Bytes) : ∀ bits, bits < 8 → bits_after s bits < 8 := by
  induction s with
  | nil => intro bits h; exact h
  | cons c cs ih =>
    intro bits h
    simp only [bits_after]
    split_ifs with h8
    · exact ih _ (by omega)
    · exact ih _ (by omega)

/-- After a prefix of alphabet characters the loop continues with the pending bit
count `bits_after` and a buffer below `2 ^ 32`. -/
theorem decode_loop_append (s : Bytes) :
    ∀ (B bits : Nat) (out : Bytes), (∀ c ∈ s, inAlphabet c) → B < 2 ^ 32 →
      ∃ B2 out2, B2 < 2 ^ 32 ∧
        ∀ t, decode_loop (s ++ t) B bits out = decode_loop t B2 (bits_after s bits) out2 := by
  induction s with
  | nil => intro B bits out _ hB; exact ⟨B, out, hB, fun t => rfl⟩
  | cons c cs ih =>
    intro B bits out hs hB
    have hc : inAlphabet c := hs c (by simp)
    have hcs : ∀ x ∈ cs, inAlphabet x := fun x hx => hs x (by simp [hx])
    have hv := b64_index_toNat_lt c
    have hB2 : B * 64 % 2 ^ 32 + (b64_index c).toNat < 2 ^ 32 := by omega
    by_cases h8 : 8 ≤ bits + 6
    · obtain ⟨B2, out2, hlt, h⟩ := ih _ (bits + 6 - 8)
        (out ++ [Fin.ofNat
          ((B * 64 % 2 ^ 32 + (b64_index c).toNat) / 2 ^ (bits + 6 - 8) % 256)]) hcs hB2
      refine ⟨B2, out2, hlt, fun t => ?_⟩
      rw [List.cons_append, decode_loop_alpha c hc, if_pos h8, h t]
      simp only [bits_after, ge_iff_le, if_pos h8]
    · obtain ⟨B2, out2, hlt, h⟩ := ih _ (bits + 6) out hcs hB2
      refine ⟨B2, out2, hlt, fun t => ?_⟩
      rw [List.cons_append, decode_loop_alpha c hc, if_neg h8, h t]
      simp only [bits_after, ge_iff_le, if_neg h8]

/-- The loop on the 32-bit buffer and the loop on the unbounded buffer agree from
any pair of states whose buffers are congruent modulo `2 ^ 32`. -/
theorem decode_loop_eq_unbounded (s : Bytes) :
    ∀ (B bits : Nat) (out : Bytes), bits < 8 →
      decode_loop s (B % 2 ^ 32) bits out = decode_loop_unbounded s B bits out := by
  induction s with
  | nil => intro B bits out _; rfl
  | cons c cs ih =>
    intro B bits out hb
    by_cases hneg : b64_index c < 0
    · simp only [decode_loop, decode_loop_unbounded, if_pos hneg]
    · have hv := b64_index_toNat_lt c
      have hw : ((B % 2 ^ 32) <<< 6) % 2 ^ 32 ||| (b64_index c).toNat
          = ((B <<< 6) ||| (b64_index c).toNat) % 2 ^ 32 := by
        rw [shl_or_eq _ _ hv, shl_or _ _ 6 (by omega)]
        omega
      simp only [decode_loop, decode_loop_unbounded, if_neg hneg, hw]
      have hu : (B <<< 6) ||| (b64_index c).toNat = B * 64 + (b64_index c).toNat := by
        rw [shl_or _ _ 6 (by omega)]; omega
      rw [hu]
      split_ifs with h8
      · have hbyte : (Fin.ofNat ((((B * 64 + (b64_index c).toNat) % 2 ^ 32) >>> (bits + 6 - 8))
            &&& 255) : Byte)
            = Fin.ofNat (((B * 64 + (b64_index c).toNat) >>> (bits + 6 - 8)) &&& 255) := by
          simp only [and255, Nat.shiftRight_eq_div_pow]
          congr 1
          interval_cases bits <;> simp only [Nat.reduceAdd, Nat.reduceSub, Nat.reducePow] <;> omega
        rw [hbyte]
        exact ih _ _ _ (by omega)
      · exact ih _ _ _ (by omega)

/-- C20. Accumulator overflow is harmless: the decoder with the 32-bit buffer, which
wraps modulo `2 ^ 32`, returns on every text (of alphabet characters or not) the
result of the same loop run with an unbounded buffer.  The two loops agree from any
states with congruent buffers and fewer than 8 pending bits; the pending bit count
stays below 8 between characters; and an emitted octet
`(buffer >> bits) & 0xff` reads bits below position 14 only. -/
theorem decode_overflow_harmless :
    (∀ s : Bytes, base64url_decode s = base64url_decode_unbounded s) ∧
    (∀ (s : Bytes) (B bits : Nat) (out : Bytes), bits < 8 →
      decode_loop s (B % 2 ^ 32) bits out = decode_loop_unbounded s B bits out) ∧
    (∀ s : Bytes, bits_after s 0 < 8) ∧
    (∀ s : Bytes, (∀ c ∈ s, inAlphabet c) →
      ∃ B2 out2, B2 < 2 ^ 32 ∧
        ∀ t, decode_loop (s ++ t) 0 0 [] = decode_loop t B2 (bits_after s 0) out2) ∧
    (∀ B bits : Nat, bits < 8 → 8 ≤ bits + 6 →
      (B >>> (bits + 6 - 8)) &&& 0xff = ((B % 2 ^ 14) >>> (bits + 6 - 8)) &&& 0xff) := by
  refine ⟨?_, fun s => decode_loop_eq_unbounded s, fun s => bits_after_lt s 0 (by decide),
    fun s hs => decode_loop_append s 0 0 [] hs (by decide), ?_⟩
  · intro s
    exact decode_loop_eq_unbounded s 0 0 [] (by decide)
  · intro B bits hb h8
    simp only [and255, Nat.shiftRight_eq_div_pow]
    interval_cases bits <;> simp only [Nat.reduceAdd, Nat.reduceSub, Nat.reducePow] <;> omega

/-! ## The encoder against the bit-level reference -/

theorem encode_append (xs ys : Bytes) (h : xs.length % 3 = 0) :
    base64url_encode (xs ++ ys) = base64url_encode xs ++ base64url_encode ys := by
  induction xs using base64url_encode.induct with
  | case1 d0 d1 d2 rest ih =>
    have hr : rest.length % 3 = 0 := by
      simp only [List.length_cons] at h; omega
    simp only [List.cons_append, base64url_encode, List.append_eq, ih hr]
  | case2 d0 => simp at h
  | case3 d0 d1 => simp at h
  | case4 => simp [base64url_encode]

theorem and3 (x : Nat) : x &&& 3 = x % 4 := Nat.and_pow_two_sub_one_eq_mod x 2

theorem and15 (x : Nat) : x &&& 15 = x % 16 := Nat.and_pow_two_sub_one_eq_mod x 4

theorem encode_one (b0 : Byte) :
    base64url_encode [b0] = [tbl (b0.val >>> 2), tbl ((b0.val &&& 3) <<< 4)] := by
  have h0 := b0.isLt
  simp only [base64url_encode, and63, and3, Nat.shiftLeft_eq, Nat.shiftRight_eq_div_pow]
  have e1 : b0.val * 2 ^ 16 / 2 ^ 18 % 64 = b0.val / 2 ^ 2 := by omega
  have e2 : b0.val * 2 ^ 16 / 2 ^ 12 % 64 = b0.val % 4 * 2 ^ 4 := by omega
  rw [e1, e2]

theorem encode_two (b0 b1 : Byte) :
    base64url_encode [b0, b1] =
      [tbl (b0.val >>> 2), tbl (((b0.val &&& 3) <<< 4) ||| (b1.val >>> 4)),
        tbl ((b1.val &&& 15) <<< 2)] := by
  have h0 := b0.isLt
  have h1 := b1.isLt
  have hn : (b0.val <<< 16) ||| (b1.val <<< 8) = b0.val * 65536 + b1.val * 256 := by
    have := group_eq b0.val b1.val 0 h1 (by omega)
    simpa using this
  have hm : ((b0.val &&& 3) <<< 4) ||| (b1.val >>> 4) = b0.val % 4 * 16 + b1.val / 16 := by
    rw [shl_or _ _ 4 (by rw [Nat.shiftRight_eq_div_pow]; omega), and3,
      Nat.shiftRight_eq_div_pow]
    omega
  simp only [base64url_encode, hn, hm]
  simp only [and63, and15, Nat.shiftLeft_eq, Nat.shiftRight_eq_div_pow]
  have e1 : (b0.val * 65536 + b1.val * 256) / 2 ^ 18 % 64 = b0.val / 2 ^ 2 := by omega
  have e2 : (b0.val * 65536 + b1.val * 256) / 2 ^ 12 % 64 = b0.val % 4 * 16 + b1.val / 16 := by
    omega
  have e3 : (b0.val * 65536 + b1.val * 256) / 2 ^ 6 % 64 = b1.val % 16 * 2 ^ 2 := by omega
  rw [e1, e2, e3]

theorem bit_at_group (d0 d1 d2 : Byte) (rest : Bytes) (j : Nat) :
    bit_at (d0 :: d1 :: d2 :: rest) (j + 24) = bit_at rest j := by
  have e1 : (j + 24) / 8 = j / 8 + 1 + 1 + 1 := by omega
  have e2 : (j + 24) % 8 = j % 8 := by omega
  simp only [bit_at, e1, e2, List.getD_cons_succ]

theorem sextet_group (d0 d1 d2 : Byte) (rest : Bytes) (k : Nat) :
    sextet (d0 :: d1 :: d2 :: rest) (k + 4) = sextet rest k := by
  have e : ∀ i, 6 * (k + 4) + i = (6 * k + i) + 24 := fun i => by omega
  have e0 : 6 * (k + 4) = 6 * k + 24 := by omega
  simp only [sextet, e, bit_at_group]
  rw [e0, bit_at_group]

theorem sextet_zero (b : Bytes) : sextet b 0 = (b.getD 0 0).val / 4 := by
  have h := (b.getD 0 0).isLt
  simp only [sextet, bit_at, Nat.shiftRight_eq_div_pow, Nat.reduceMul, Nat.reduceAdd,
    Nat.reduceDiv, Nat.reduceMod, Nat.reduceSub, Nat.reducePow]
  omega

theorem sextet_one (b : Bytes) :
    sextet b 1 = (b.getD 0 0).val % 4 * 16 + (b.getD 1 0).val / 16 := by
  have h := (b.getD 0 0).isLt
  have h1 := (b.getD 1 0).isLt
  simp only [sextet, bit_at, Nat.shiftRight_eq_div_pow, Nat.reduceMul, Nat.reduceAdd,
    Nat.reduceDiv, Nat.reduceMod, Nat.reduceSub, Nat.reducePow]
  omega

theorem sextet_two (b : Bytes) :
    sextet b 2 = (b.getD 1 0).val % 16 * 4 + (b.getD 2 0).val / 64 := by
  have h := (b.getD 1 0).isLt
  have h1 := (b.getD 2 0).isLt
  simp only [sextet, bit_at, Nat.shiftRight_eq_div_pow, Nat.reduceMul, Nat.reduceAdd,
    Nat.reduceDiv, Nat.reduceMod, Nat.reduceSub, Nat.reducePow]
  omega

theorem sextet_three (b : Bytes) : sextet b 3 = (b.getD 2 0).val % 64 := by
  have h := (b.getD 2 0).isLt
  simp only [sextet, bit_at, Nat.shiftRight_eq_div_pow, Nat.reduceMul, Nat.reduceAdd,
    Nat.reduceDiv, Nat.reduceMod, Nat.reduceSub, Nat.reducePow]
  omega

/-- Character `k` of the encoder's output is the table entry of the `k`-th 6-bit
unit of the input's bit string. -/
theorem encode_getD (b : Bytes) :
    ∀ k, k < (base64url_encode b).length → (base64url_encode b).getD k 0 = tbl (sextet b k) := by
  induction b using base64url_encode.induct with
  | case1 d0 d1 d2 rest ih =>
    intro k hk
    have h0 := d0.isLt
    have h1 := d1.isLt
    have h2 := d2.isLt
    simp only [base64url_encode, group_eq d0.val d1.val d2.val h1 h2, and63,
      Nat.shiftRight_eq_div_pow, List.length_cons] at hk ⊢
    match k with
    | 0 =>
      rw [sextet_zero]
      simp only [List.getD_cons_zero]
      congr 1; omega
    | 1 =>
      rw [sextet_one]
      simp only [List.getD_cons_zero, List.getD_cons_succ]
      congr 1; omega
    | 2 =>
      rw [sextet_two]
      simp only [List.getD_cons_zero, List.getD_cons_succ]
      congr 1; omega
    | 3 =>
      rw [sextet_three]
      simp only [List.getD_cons_zero, List.getD_cons_succ]
      congr 1; omega
    | j + 4 =>
      rw [sextet_group]
      simp only [List.getD_cons_succ]
      exact ih j (by omega)
  | case2 d0 =>
    intro k hk
    have h0 := d0.isLt
    simp only [base64url_encode, and63, Nat.shiftLeft_eq, Nat.shiftRight_eq_div_pow,
      List.length_cons, List.length_nil] at hk ⊢
    match k with
    | 0 =>
      rw [sextet_zero]
      simp only [List.getD_cons_zero]
      congr 1; omega
    | 1 =>
      rw [sextet_one]
      simp only [List.getD_cons_zero, List.getD_cons_succ, List.getD_nil]
      congr 1; simp only [Fin.val_zero]; omega
    | j + 2 => omega
  | case3 d0 d1 =>
    intro k hk
    have h0 := d0.isLt
    have h1 := d1.isLt
    have hn : (d0.val <<< 16) ||| (d1.val <<< 8) = d0.val * 65536 + d1.val * 256 := by
      have := group_eq d0.val d1.val 0 h1 (by omega)
      simpa using this
    simp only [base64url_encode, hn, and63, Nat.shiftRight_eq_div_pow,
      List.length_cons, List.length_nil] at hk ⊢
    match k with
    | 0 =>
      rw [sextet_zero]
      simp only [List.getD_cons_zero]
      congr 1; omega
    | 1 =>
      rw [sextet_one]
      simp only [List.getD_cons_zero, List.getD_cons_succ]
      congr 1; omega
    | 2 =>
      rw [sextet_two]
      simp only [List.getD_cons_zero, List.getD_cons_succ, List.getD_nil]
      congr 1; simp only [Fin.val_zero]; omega
    | j + 3 => omega
  | case4 =>
    intro k hk
    simp [base64url_encode] at hk

/-- C17. The encoder against the bit-level reference: character `k` of
`base64url_encode b`, for every `k` below the output length, is `b64_table[v]` with
`v` the 6-bit value of bits `6k .. 6k+5` of the big-endian bit string of `b`
continued with zero bits.  A tail of one octet after whole groups yields
`table[b0 >> 2]`, `table[(b0 & 3) << 4]`; a tail of two octets yields three
characters, the last of index `(b1 & 15) << 2`, whose two low bits are zero. -/
theorem encode_matches_reference (b : Bytes) :
    (∀ k, k < (base64url_encode b).length →
      (base64url_encode b).getD k 0 = b64_table.getD (sextet b k) 0 ∧ sextet b k < 64) ∧
    (∀ b0 : Byte, b.length % 3 = 0 →
      base64url_encode (b ++ [b0]) =
        base64url_encode b ++ [tbl (b0.val >>> 2), tbl ((b0.val &&& 3) <<< 4)]) ∧
    (∀ b0 b1 : Byte, b.length % 3 = 0 →
      base64url_encode (b ++ [b0, b1]) =
        base64url_encode b ++
          [tbl (b0.val >>> 2), tbl (((b0.val &&& 3) <<< 4) ||| (b1.val >>> 4)),
            tbl ((b1.val &&& 15) <<< 2)] ∧
      ((b1.val &&& 15) <<< 2) % 4 = 0) := by
  refine ⟨?_, ?_, ?_⟩
  · intro k hk
    refine ⟨encode_getD b k hk, ?_⟩
    have bit_lt : ∀ j, bit_at b j < 2 := fun j => Nat.mod_lt _ (by decide)
    have h0 := bit_lt (6 * k)
    have h1 := bit_lt (6 * k + 1)
    have h2 := bit_lt (6 * k + 2)
    have h3 := bit_lt (6 * k + 3)
    have h4 := bit_lt (6 * k + 4)
    have h5 := bit_lt (6 * k + 5)
    simp only [sextet]
    omega
  · intro b0 h
    rw [encode_append b [b0] h, encode_one]
  · intro b0 b1 h
    refine ⟨by rw [encode_append b [b0, b1] h, encode_two], ?_⟩
    rw [Nat.shiftLeft_eq]
    omega

theorem encode_matches_reference_example :
    base64url_encode (lit "Ma") = [tbl 19, tbl 22, tbl 4] ∧ sextet (lit "Ma") 2 = 4 := by
  decide

/-! ## Counting the comparisons of `verify` -/

theorem verify_loop_count_fst (d e : Bytes) (n : Nat) :
    ∀ i, (verify_loop_count d e n i).1 = verify_loop d e n i := by
  induction n with
  | zero => intro i; rfl
  | succ n ih =>
    intro i
    simp only [verify_loop_count, verify_loop]
    split_ifs
    · rfl
    · exact ih (i + 1)

theorem verify_loop_count_equal (d e : Bytes) (n : Nat) :
    ∀ i, (∀ j, i ≤ j → j < i + n → d.getD j 0 = e.getD j 0) →
      verify_loop_count d e n i = (true, n) := by
  induction n with
  | zero => intro i _; rfl
  | succ n ih =>
    intro i h
    have hi : d.getD i 0 = e.getD i 0 := h i (Nat.le_refl i) (by omega)
    simp only [verify_loop_count, ne_eq, hi, not_true_eq_false, if_false,
      ih (i + 1) (fun j h1 h2 => h j (by omega) (by omega))]

theorem verify_loop_count_mismatch (d e : Bytes) (n : Nat) :
    ∀ i k, k < n → (∀ j, i ≤ j → j < i + k → d.getD j 0 = e.getD j 0) →
      d.getD (i + k) 0 ≠ e.getD (i + k) 0 →
      verify_loop_count d e n i = (false, k + 1) := by
  induction n with
  | zero => intro i k hk; omega
  | succ n ih =>
    intro i k hk heq hne
    cases k with
    | zero =>
      simp only [Nat.add_zero] at hne
      simp only [verify_loop_count, ne_eq, hne, not_false_eq_true, if_true]
    | succ k =>
      have hi : d.getD i 0 = e.getD i 0 := heq i (Nat.le_refl i) (by omega)
      have hne2 : d.getD (i + 1 + k) 0 ≠ e.getD (i + 1 + k) 0 := by
        have e1 : i + 1 + k = i + (k + 1) := by omega
        rw [e1]; exact hne
      simp only [verify_loop_count, ne_eq, hi, not_true_eq_false, if_false,
        ih (i + 1) k (by omega) (fun j h1 h2 => heq j (by omega) (by omega)) hne2]

/-- C13, as the code has it.  With signatures of equal length the loop of `verify`
compares the octet pairs in index order and returns `false` at the first pair that
differs: the number of comparisons is `k + 1` when the first difference is at index
`k`, and the signature length when there is none.  So the count equals the signature
length exactly when no octet before the last one differs, and the result is `true`
exactly when no octet differs; the result is that of `verify`. -/
theorem comparison_count (d e : Bytes) (hlen : d.length = e.length) :
    (verify_loop_count d e e.length 0).1 = verify_loop d e e.length 0 ∧
    (d = e → verify_loop_count d e e.length 0 = (true, e.length)) ∧
    (∀ k, k < e.length → (∀ j, j < k → d.getD j 0 = e.getD j 0) →
      d.getD k 0 ≠ e.getD k 0 → verify_loop_count d e e.length 0 = (false, k + 1)) ∧
    (d ≠ e → ∃ k, k < e.length ∧ (∀ j, j < k → d.getD j 0 = e.getD j 0) ∧
      d.getD k 0 ≠ e.getD k 0 ∧ verify_loop_count d e e.length 0 = (false, k + 1)) ∧
    ((verify_loop_count d e e.length 0).2 = e.length ↔
      ∀ j, j + 1 < e.length → d.getD j 0 = e.getD j 0) ∧
    ((verify_loop_count d e e.length 0).1 = true ↔ d = e) := by
  have hmis : ∀ k, k < e.length → (∀ j, j < k → d.getD j 0 = e.getD j 0) →
      d.getD k 0 ≠ e.getD k 0 → verify_loop_count d e e.length 0 = (false, k + 1) := by
    intro k hk heq hne
    exact verify_loop_count_mismatch d e e.length 0 k hk
      (fun j _ h2 => heq j (by omega)) (by simpa using hne)
  have heq : d = e → verify_loop_count d e e.length 0 = (true, e.length) := by
    intro h
    exact verify_loop_count_equal d e e.length 0 (fun j _ _ => by rw [h])
  have hfirst : d ≠ e → ∃ k, k < e.length ∧ (∀ j, j < k → d.getD j 0 = e.getD j 0) ∧
      d.getD k 0 ≠ e.getD k 0 ∧ verify_loop_count d e e.length 0 = (false, k + 1) := by
    intro hne
    have hex : ∃ k, k < e.length ∧ d.getD k 0 ≠ e.getD k 0 := by
      by_contra hcon
      apply hne
      have hv : verify_loop d e e.length 0 = true := by
        rw [verify_loop_iff]
        intro j _ hj
        by_contra hj2
        exact hcon ⟨j, by omega, hj2⟩
      rw [verify_loop_eq d e hlen] at hv
      exact of_decide_eq_true hv
    classical
    let k := Nat.find hex
    have hk : k < e.length ∧ d.getD k 0 ≠ e.getD k 0 := Nat.find_spec hex
    have hmin : ∀ j, j < k → d.getD j 0 = e.getD j 0 := by
      intro j hj
      by_contra hj2
      exact Nat.find_min hex hj ⟨by omega, hj2⟩
    exact ⟨k, hk.1, hmin, hk.2, hmis k hk.1 hmin hk.2⟩
  refine ⟨verify_loop_count_fst d e e.length 0, heq, hmis, hfirst, ?_, ?_⟩
  · by_cases hde : d = e
    · rw [heq hde]
      exact ⟨fun _ j _ => by rw [hde], fun _ => rfl⟩
    · obtain ⟨k, hk, hmin, hne, hcount⟩ := hfirst hde
      rw [hcount]
      constructor
      · intro h j hj
        exact hmin j (by simp only at h; omega)
      · intro h
        by_contra hk2
        exact hne (h k (by simp only at hk2; omega))
  · by_cases hde : d = e
    · rw [heq hde]
      exact ⟨fun _ => hde, fun _ => rfl⟩
    · obtain ⟨k, _, _, _, hcount⟩ := hfirst hde
      rw [hcount]
      exact ⟨fun h => (by cases h), fun h => absurd h hde⟩

theorem comparison_count_witness :
    (verify_loop_count (lit "abc") (lit "aXc") (lit "aXc").length 0).1
        = verify_loop (lit "abc") (lit "aXc") (lit "aXc").length 0 ∧
    (lit "abc" = lit "aXc" →
      verify_loop_count (lit "abc") (lit "aXc") (lit "aXc").length 0
        = (true, (lit "aXc").length)) ∧
    (∀ k, k < (lit "aXc").length →
      (∀ j, j < k → (lit "abc").getD j 0 = (lit "aXc").getD j 0) →
      (lit "abc").getD k 0 ≠ (lit "aXc").getD k 0 →
      verify_loop_count (lit "abc") (lit "aXc") (lit "aXc").length 0 = (false, k + 1)) ∧
    (lit "abc" ≠ lit "aXc" →
      ∃ k, k < (lit "aXc").length ∧
        (∀ j, j < k → (lit "abc").getD j 0 = (lit "aXc").getD j 0) ∧
        (lit "abc").getD k 0 ≠ (lit "aXc").getD k 0 ∧
        verify_loop_count (lit "abc") (lit "aXc") (lit "aXc").length 0 = (false, k + 1)) ∧
    ((verify_loop_count (lit "abc") (lit "aXc") (lit "aXc").length 0).2 = (lit "aXc").length ↔
      ∀ j, j + 1 < (lit "aXc").length → (lit "abc").getD j 0 = (lit "aXc").getD j 0) ∧
    ((verify_loop_count (lit "abc") (lit "aXc") (lit "aXc").length 0).1 = true ↔
      lit "abc" = lit "aXc") :=
  comparison_count (lit "abc") (lit "aXc") (by decide)

/-- C13, as stated, fails.  Against an expected signature of 32 zero octets, a decoded
signature of the same length that differs in its first octet costs 1 comparison, not
32, and one that differs in its last octet only costs 32: the count follows the
position of the first difference. -/
theorem comparison_count_not_constant :
    (1 :: List.replicate 31 (0 : Byte)).length = (List.replicate 32 (0 : Byte)).length ∧
    (List.replicate 31 (0 : Byte) ++ [1]).length = (List.replicate 32 (0 : Byte)).length ∧
    verify_loop_count (1 :: List.replicate 31 0) (List.replicate 32 0) 32 0 = (false, 1) ∧
    verify_loop_count (List.replicate 31 0 ++ [1]) (List.replicate 32 0) 32 0 = (false, 32) ∧
    (verify_loop_count (1 :: List.replicate 31 0) (List.replicate 32 0) 32 0).2
      ≠ (List.replicate 32 (0 : Byte)).length := by
  decide

/-! ## More than one accepted signature text -/

theorem bits_after_eq (s : Bytes) :
    ∀ bits, bits < 8 → bits_after s bits = (bits + 6 * s.length) % 8 := by
  induction s with
  | nil => intro bits h; simp only [bits_after, List.length_nil]; omega
  | cons c cs ih =>
    intro bits h
    simp only [bits_after, List.length_cons]
    split_ifs with h8
    · rw [ih _ (by omega)]; omega
    · rw [ih _ (by omega)]; omega

/-- Decoding whole encoded groups followed by any text `t`: the groups' octets are
appended and the loop continues on `t` with no pending bits. -/
theorem decode_loop_encode_append (xs : Bytes) (h3 : xs.length % 3 = 0) (out : Bytes) :
    ∃ B2, ∀ t,
      decode_loop (base64url_encode xs ++ t) 0 0 out = decode_loop t B2 0 (out ++ xs) := by
  obtain ⟨B2, out2, _, h⟩ := decode_loop_append (base64url_encode xs) 0 0 out
    (encode_inAlphabet xs) (by decide)
  have hb : bits_after (base64url_encode xs) 0 = 0 := by
    rw [bits_after_eq _ 0 (by decide), encode_length]
    have : xs.length % 3 ≠ 1 ∧ xs.length % 3 ≠ 2 := by omega
    simp only [this.1, this.2, if_false]
    omega
  have hnil := h []
  rw [List.append_nil, decode_loop_encode xs 0 out] at hnil
  simp only [decode_loop, Except.ok.injEq] at hnil
  refine ⟨B2, fun t => ?_⟩
  rw [h t, hb, hnil]

/-- Decoding the three characters of a two-octet tail, with any value `j` in the two
low bits of the last character, returns the two octets. -/
theorem decode_tail_two (a b : Byte) (j : Nat) (hj : j < 4) (B : Nat) (out : Bytes) :
    decode_loop
        [tbl (a.val / 4), tbl (a.val % 4 * 16 + b.val / 16), tbl (4 * (b.val % 16) + j)] B 0 out
      = .ok (out ++ [a, b]) := by
  have ha := a.isLt
  have hb := b.isLt
  rw [decode_loop_tbl _ (by omega), if_neg (by omega),
    decode_loop_tbl _ (by omega), if_pos (by omega),
    decode_loop_tbl _ (by omega), if_pos (by omega)]
  rw [fin_ofNat_eq _ a (by omega), fin_ofNat_eq _ b (by omega)]
  simp [decode_loop]

theorem encode_two_arith (a b : Byte) :
    base64url_encode [a, b] =
      [tbl (a.val / 4), tbl (a.val % 4 * 16 + b.val / 16), tbl (4 * (b.val % 16))] := by
  have hb := b.isLt
  have hm : ((a.val &&& 3) <<< 4) ||| (b.val >>> 4) = a.val % 4 * 16 + b.val / 16 := by
    rw [shl_or _ _ 4 (by rw [Nat.shiftRight_eq_div_pow]; omega), and3,
      Nat.shiftRight_eq_div_pow]
    omega
  rw [encode_two, hm]
  simp only [and15, Nat.shiftLeft_eq, Nat.shiftRight_eq_div_pow]
  have e : b.val % 16 * 2 ^ 2 = 4 * (b.val % 16) := by omega
  rw [e]

theorem split_last_two (d : Bytes) (n : Nat) (h : d.length = n + 2) :
    ∃ xs a b, d = xs ++ [a, b] ∧ xs.length = n := by
  refine ⟨d.take n, d.getD n 0, d.getD (n + 1) 0, ?_, by simp [h]⟩
  apply List.ext_getElem
  · simp [h]
  · intro i h1 h2
    by_cases hi : i < n
    · rw [List.getElem_append_left (by simp [h]; omega)]
      simp
    · rw [List.getElem_append_right (by simp [h]; omega)]
      have hl : (d.take n).length = n := by simp [h]
      simp only [hl]
      have hi2 : i = n ∨ i = n + 1 := by omega
      rcases hi2 with e | e
      · subst e
        simp [List.getD_eq_getElem?_getD, List.getElem?_eq_getElem h1]
      · subst e
        simp [List.getD_eq_getElem?_getD, List.getElem?_eq_getElem h1]


/-- C18. Signature malleability: when the keyed hash returns 32 octets on the signing
input, the signature segment of `encode p s` is 42 characters `init` followed by a
43rd character of index `4 * v`, `v < 16`, whose two low bits the decoder drops.
Putting any of the three other characters with the same high four bits (index
`4 * v + j`, `j = 1, 2, 3`) in its place, with the header and payload segments
unchanged, gives a different token that `verify` accepts. -/
theorem signature_malleable (hmac : Bytes → Bytes → Bytes) (p s : Bytes)
    (hlen : (hmac s (base64url_encode header ++ dot :: base64url_encode p)).length = 32) :
    ∃ init v, v < 16 ∧ init.length = 42 ∧
      encode hmac p s =
        base64url_encode header ++ dot ::
          (base64url_encode p ++ dot :: (init ++ [tbl (4 * v)])) ∧
      ∀ j, 1 ≤ j → j ≤ 3 →
        inAlphabet (tbl (4 * v + j)) ∧
        base64url_encode header ++ dot ::
          (base64url_encode p ++ dot :: (init ++ [tbl (4 * v + j)])) ≠ encode hmac p s ∧
        verify hmac (base64url_encode header ++ dot ::
          (base64url_encode p ++ dot :: (init ++ [tbl (4 * v + j)]))) s = .ok true := by
  obtain ⟨xs, a, b, hd, hxs⟩ := split_last_two _ 30 hlen
  have h3 : xs.length % 3 = 0 := by rw [hxs]
  have henc : base64url_encode (hmac s (base64url_encode header ++ dot :: base64url_encode p))
      = (base64url_encode xs ++ [tbl (a.val / 4), tbl (a.val % 4 * 16 + b.val / 16)])
          ++ [tbl (4 * (b.val % 16))] := by
    rw [hd, encode_append xs [a, b] h3, encode_two_arith]
    simp
  have hshape := encode_shape hmac p s
  rw [henc] at hshape
  refine ⟨base64url_encode xs ++ [tbl (a.val / 4), tbl (a.val % 4 * 16 + b.val / 16)],
    b.val % 16, Nat.mod_lt _ (by decide), ?_, hshape, ?_⟩
  · rw [List.length_append, encode_length, hxs]; rfl
  · intro j hj1 hj3
    have hb := b.isLt
    refine ⟨tbl_inAlphabet _ (by omega), ?_, ?_⟩
    · intro heq
      rw [hshape] at heq
      have h1 := List.append_cancel_left heq
      have h2 := List.append_cancel_left (List.cons_injective h1)
      have h3 := List.append_cancel_left (List.cons_injective h2)
      have h4 : tbl (4 * (b.val % 16) + j) = tbl (4 * (b.val % 16)) := by
        simpa using h3
      have := tbl_injective _ _ (by omega) (by omega) h4
      omega
    · obtain ⟨B2, hB2⟩ := decode_loop_encode_append xs h3 []
      have hdec : base64url_decode
          ((base64url_encode xs ++ [tbl (a.val / 4), tbl (a.val % 4 * 16 + b.val / 16)])
            ++ [tbl (4 * (b.val % 16) + j)])
          = .ok (hmac s (base64url_encode header ++ dot :: base64url_encode p)) := by
        rw [base64url_decode, List.append_assoc, hB2, List.cons_append, List.cons_append,
          List.nil_append, decode_tail_two a b j (by omega), List.nil_append, ← hd]
      rw [verify,
        verify_with_two_dots _ _ _ _ _ _ (dot_not_mem_encode header) (dot_not_mem_encode p),
        hdec]
      simp

theorem signature_malleable_witness :
    ∃ init v, v < 16 ∧ init.length = 42 ∧
      encode (fun _ _ => List.replicate 32 0) (lit "hi") (lit "k") =
        base64url_encode header ++ dot ::
          (base64url_encode (lit "hi") ++ dot :: (init ++ [tbl (4 * v)])) ∧
      ∀ j, 1 ≤ j → j ≤ 3 →
        inAlphabet (tbl (4 * v + j)) ∧
        base64url_encode header ++ dot ::
          (base64url_encode (lit "hi") ++ dot :: (init ++ [tbl (4 * v + j)]))
            ≠ encode (fun _ _ => List.replicate 32 0) (lit "hi") (lit "k") ∧
        verify (fun _ _ => List.replicate 32 0) (base64url_encode header ++ dot ::
          (base64url_encode (lit "hi") ++ dot :: (init ++ [tbl (4 * v + j)]))) (lit "k")
            = .ok true :=
  signature_malleable (fun _ _ => List.replicate 32 0) (lit "hi") (lit "k") (by decide)

/-! ## Re-encoding a decoded text -/

theorem alpha_exists (c : Byte) (h : inAlphabet c) : ∃ v, v < 64 ∧ c = tbl v :=
  ⟨(b64_index c).toNat, b64_index_toNat_lt c, (tbl_b64_index c h).symm⟩

theorem byte_val (a : Nat) (h : a < 256) : (Fin.ofNat a : Byte).val = a :=
  Nat.mod_eq_of_lt h

theorem tbl_eq_iff (i j : Nat) (hi : i < 64) (hj : j < 64) : tbl i = tbl j ↔ i = j :=
  ⟨tbl_injective i j hi hj, fun e => by rw [e]⟩

theorem last_value_tbl (s : Bytes) (v : Nat) (hv : v < 64) : last_value (s ++ [tbl v]) = v := by
  simp [last_value, b64_index_tbl v hv]

theorem decode_pre1 (v1 : Nat) (h1 : v1 < 64) (B : Nat) (out : Bytes) :
    decode_loop [tbl v1] B 0 out = .ok out := by
  rw [decode_loop_tbl _ h1, if_neg (by omega)]
  rfl

theorem decode_pre2 (v1 v2 : Nat) (h1 : v1 < 64) (h2 : v2 < 64) (B : Nat) (out : Bytes) :
    decode_loop [tbl v1, tbl v2] B 0 out = .ok (out ++ [Fin.ofNat (v1 * 4 + v2 / 16)]) := by
  rw [decode_loop_tbl _ h1, if_neg (by omega), decode_loop_tbl _ h2, if_pos (by omega)]
  have e : (Fin.ofNat (((B * 64 % 2 ^ 32 + v1) * 64 % 2 ^ 32 + v2) / 2 ^ (0 + 6 + 6 - 8) % 256)
      : Byte) = Fin.ofNat (v1 * 4 + v2 / 16) := by
    apply Fin.ext
    simp only [Fin.ofNat, Nat.reduceAdd, Nat.reduceSub, Nat.reducePow]
    omega
  rw [e]
  rfl

theorem decode_pre3 (v1 v2 v3 : Nat) (h1 : v1 < 64) (h2 : v2 < 64) (h3 : v3 < 64) (B : Nat)
    (out : Bytes) :
    decode_loop [tbl v1, tbl v2, tbl v3] B 0 out =
      .ok (out ++ [Fin.ofNat (v1 * 4 + v2 / 16), Fin.ofNat (v2 % 16 * 16 + v3 / 4)]) := by
  rw [decode_loop_tbl _ h1, if_neg (by omega), decode_loop_tbl _ h2, if_pos (by omega),
    decode_loop_tbl _ h3, if_pos (by omega)]
  have e : (Fin.ofNat (((B * 64 % 2 ^ 32 + v1) * 64 % 2 ^ 32 + v2) / 2 ^ (0 + 6 + 6 - 8) % 256)
      : Byte) = Fin.ofNat (v1 * 4 + v2 / 16) := by
    apply Fin.ext
    simp only [Fin.ofNat, Nat.reduceAdd, Nat.reduceSub, Nat.reducePow]
    omega
  have e2 : (Fin.ofNat ((((B * 64 % 2 ^ 32 + v1) * 64 % 2 ^ 32 + v2) * 64 % 2 ^ 32 + v3)
      / 2 ^ (0 + 6 + 6 - 8 + 6 - 8) % 256) : Byte) = Fin.ofNat (v2 % 16 * 16 + v3 / 4) := by
    apply Fin.ext
    simp only [Fin.ofNat, Nat.reduceAdd, Nat.reduceSub, Nat.reducePow]
    omega
  rw [e, e2]
  simp [decode_loop]

theorem decode_pre4 (v1 v2 v3 v4 : Nat) (h1 : v1 < 64) (h2 : v2 < 64) (h3 : v3 < 64)
    (h4 : v4 < 64) (t : Bytes) (B : Nat) (out : Bytes) :
    ∃ B2, decode_loop (tbl v1 :: tbl v2 :: tbl v3 :: tbl v4 :: t) B 0 out =
      decode_loop t B2 0
        (out ++ [Fin.ofNat (v1 * 4 + v2 / 16), Fin.ofNat (v2 % 16 * 16 + v3 / 4),
          Fin.ofNat (v3 % 4 * 64 + v4)]) := by
  refine ⟨(((B * 64 % 2 ^ 32 + v1) * 64 % 2 ^ 32 + v2) * 64 % 2 ^ 32 + v3) * 64 % 2 ^ 32 + v4,
    ?_⟩
  rw [decode_loop_tbl _ h1, if_neg (by omega), decode_loop_tbl _ h2, if_pos (by omega),
    decode_loop_tbl _ h3, if_pos (by omega), decode_loop_tbl _ h4, if_pos (by omega)]
  have e : (Fin.ofNat (((B * 64 % 2 ^ 32 + v1) * 64 % 2 ^ 32 + v2) / 2 ^ (0 + 6 + 6 - 8) % 256)
      : Byte) = Fin.ofNat (v1 * 4 + v2 / 16) := by
    apply Fin.ext
    simp only [Fin.ofNat, Nat.reduceAdd, Nat.reduceSub, Nat.reducePow]
    omega
  have e2 : (Fin.ofNat ((((B * 64 % 2 ^ 32 + v1) * 64 % 2 ^ 32 + v2) * 64 % 2 ^ 32 + v3)
      / 2 ^ (0 + 6 + 6 - 8 + 6 - 8) % 256) : Byte) = Fin.ofNat (v2 % 16 * 16 + v3 / 4) := by
    apply Fin.ext
    simp only [Fin.ofNat, Nat.reduceAdd, Nat.reduceSub, Nat.reducePow]
    omega
  have e3 : (Fin.ofNat (((((B * 64 % 2 ^ 32 + v1) * 64 % 2 ^ 32 + v2) * 64 % 2 ^ 32 + v3)
      * 64 % 2 ^ 32 + v4) / 2 ^ (0 + 6 + 6 - 8 + 6 - 8 + 6 - 8) % 256) : Byte)
      = Fin.ofNat (v3 % 4 * 64 + v4) := by
    apply Fin.ext
    simp only [Fin.ofNat, Nat.reduceAdd, Nat.reduceSub, Nat.reducePow]
    omega
  rw [e, e2, e3]
  simp

theorem encode_pre2 (v1 v2 : Nat) (h1 : v1 < 64) (h2 : v2 < 64) :
    base64url_encode [Fin.ofNat (v1 * 4 + v2 / 16)] = [tbl v1, tbl (v2 / 16 * 16)] := by
  rw [encode_one, byte_val _ (by omega), and3, Nat.shiftLeft_eq, Nat.shiftRight_eq_div_pow]
  have e1 : (v1 * 4 + v2 / 16) / 2 ^ 2 = v1 := by omega
  have e2 : (v1 * 4 + v2 / 16) % 4 * 2 ^ 4 = v2 / 16 * 16 := by omega
  rw [e1, e2]

theorem encode_pre3 (v1 v2 v3 : Nat) (h1 : v1 < 64) (h2 : v2 < 64) (h3 : v3 < 64) :
    base64url_encode [Fin.ofNat (v1 * 4 + v2 / 16), Fin.ofNat (v2 % 16 * 16 + v3 / 4)] =
      [tbl v1, tbl v2, tbl (v3 / 4 * 4)] := by
  rw [encode_two_arith, byte_val _ (by omega), byte_val _ (by omega)]
  have e1 : (v1 * 4 + v2 / 16) / 4 = v1 := by omega
  have e2 : (v1 * 4 + v2 / 16) % 4 * 16 + (v2 % 16 * 16 + v3 / 4) / 16 = v2 := by omega
  have e3 : 4 * ((v2 % 16 * 16 + v3 / 4) % 16) = v3 / 4 * 4 := by omega
  rw [e1, e2, e3]

theorem encode_pre4 (v1 v2 v3 v4 : Nat) (h1 : v1 < 64) (h2 : v2 < 64) (h3 : v3 < 64)
    (h4 : v4 < 64) (tail : Bytes) :
    base64url_encode (Fin.ofNat (v1 * 4 + v2 / 16) :: Fin.ofNat (v2 % 16 * 16 + v3 / 4) ::
        Fin.ofNat (v3 % 4 * 64 + v4) :: tail) =
      tbl v1 :: tbl v2 :: tbl v3 :: tbl v4 :: base64url_encode tail := by
  simp only [base64url_encode]
  rw [group_eq _ _ _ (Fin.isLt _) (Fin.isLt _), byte_val _ (by omega : v1 * 4 + v2 / 16 < 256),
    byte_val _ (by omega : v2 % 16 * 16 + v3 / 4 < 256),
    byte_val _ (by omega : v3 % 4 * 64 + v4 < 256)]
  simp only [and63, Nat.shiftRight_eq_div_pow]
  have e1 : ((v1 * 4 + v2 / 16) * 65536 + (v2 % 16 * 16 + v3 / 4) * 256 + (v3 % 4 * 64 + v4))
      / 2 ^ 18 % 64 = v1 := by omega
  have e2 : ((v1 * 4 + v2 / 16) * 65536 + (v2 % 16 * 16 + v3 / 4) * 256 + (v3 % 4 * 64 + v4))
      / 2 ^ 12 % 64 = v2 := by omega
  have e3 : ((v1 * 4 + v2 / 16) * 65536 + (v2 % 16 * 16 + v3 / 4) * 256 + (v3 % 4 * 64 + v4))
      / 2 ^ 6 % 64 = v3 := by omega
  have e4 : ((v1 * 4 + v2 / 16) * 65536 + (v2 % 16 * 16 + v3 / 4) * 256 + (v3 % 4 * 64 + v4))
      % 64 = v4 := by omega
  rw [e1, e2, e3, e4]

theorem canonical_quad (a b c d : Byte) (rest : Bytes) :
    canonical (a :: b :: c :: d :: rest) ↔ canonical rest := by
  cases rest with
  | nil => simp [canonical]
  | cons y ys =>
    have e : (a :: b :: c :: d :: y :: ys).length % 4 = (y :: ys).length % 4 := by
      simp only [List.length_cons]; omega
    have l : last_value (a :: b :: c :: d :: y :: ys) = last_value (y :: ys) := by
      simp [last_value, List.getLastD]
    simp only [canonical, e, l]

/-- Decoding a text of alphabet characters from a state with no pending bits appends
octets whose encoding is the text again exactly when the text is canonical. -/
theorem reencode_aux : ∀ (s : Bytes) (B : Nat) (out : Bytes), (∀ c ∈ s, inAlphabet c) →
    ∃ r, decode_loop s B 0 out = .ok (out ++ r) ∧ (base64url_encode r = s ↔ canonical s)
  | [], B, out, _ => ⟨[], by simp [decode_loop], by simp [base64url_encode, canonical]⟩
  | [c1], B, out, hs => by
    obtain ⟨v1, h1, rfl⟩ := alpha_exists c1 (hs c1 (by simp))
    refine ⟨[], by rw [decode_pre1 v1 h1]; simp, ?_⟩
    simp [base64url_encode, canonical]
  | [c1, c2], B, out, hs => by
    obtain ⟨v1, h1, rfl⟩ := alpha_exists c1 (hs c1 (by simp))
    obtain ⟨v2, h2, rfl⟩ := alpha_exists c2 (hs c2 (by simp))
    refine ⟨[Fin.ofNat (v1 * 4 + v2 / 16)], decode_pre2 v1 v2 h1 h2 B out, ?_⟩
    have hl : last_value [tbl v1, tbl v2] = v2 := last_value_tbl [tbl v1] v2 h2
    rw [encode_pre2 v1 v2 h1 h2]
    simp only [canonical, hl, List.length_cons, List.length_nil, List.cons.injEq, true_and,
      and_true, tbl_eq_iff _ _ (by omega : v2 / 16 * 16 < 64) h2]
    constructor
    · intro h; refine ⟨by decide, fun _ => by omega, fun h3 => by omega⟩
    · intro h; have := h.2.1 (by decide); omega
  | [c1, c2, c3], B, out, hs => by
    obtain ⟨v1, h1, rfl⟩ := alpha_exists c1 (hs c1 (by simp))
    obtain ⟨v2, h2, rfl⟩ := alpha_exists c2 (hs c2 (by simp))
    obtain ⟨v3, h3, rfl⟩ := alpha_exists c3 (hs c3 (by simp))
    refine ⟨[Fin.ofNat (v1 * 4 + v2 / 16), Fin.ofNat (v2 % 16 * 16 + v3 / 4)],
      decode_pre3 v1 v2 v3 h1 h2 h3 B out, ?_⟩
    have hl : last_value [tbl v1, tbl v2, tbl v3] = v3 :=
      last_value_tbl [tbl v1, tbl v2] v3 h3
    rw [encode_pre3 v1 v2 v3 h1 h2 h3]
    simp only [canonical, hl, List.length_cons, List.length_nil, List.cons.injEq, true_and,
      and_true, tbl_eq_iff _ _ (by omega : v3 / 4 * 4 < 64) h3]
    constructor
    · intro h; refine ⟨by decide, fun h2 => by omega, fun _ => by omega⟩
    · intro h; have := h.2.2 (by decide); omega
  | c1 :: c2 :: c3 :: c4 :: rest, B, out, hs => by
    obtain ⟨v1, h1, rfl⟩ := alpha_exists c1 (hs c1 (by simp))
    obtain ⟨v2, h2, rfl⟩ := alpha_exists c2 (hs c2 (by simp))
    obtain ⟨v3, h3, rfl⟩ := alpha_exists c3 (hs c3 (by simp))
    obtain ⟨v4, h4, rfl⟩ := alpha_exists c4 (hs c4 (by simp))
    obtain ⟨B2, hB2⟩ := decode_pre4 v1 v2 v3 v4 h1 h2 h3 h4 rest B out
    obtain ⟨r, hr, hiff⟩ := reencode_aux rest B2
      (out ++ [Fin.ofNat (v1 * 4 + v2 / 16), Fin.ofNat (v2 % 16 * 16 + v3 / 4),
        Fin.ofNat (v3 % 4 * 64 + v4)]) (fun c hc => hs c (by simp [hc]))
    refine ⟨Fin.ofNat (v1 * 4 + v2 / 16) :: Fin.ofNat (v2 % 16 * 16 + v3 / 4) ::
      Fin.ofNat (v3 % 4 * 64 + v4) :: r, ?_, ?_⟩
    · rw [hB2, hr]; simp
    · rw [encode_pre4 v1 v2 v3 v4 h1 h2 h3 h4, canonical_quad, ← hiff]
      simp

/-- C19. Canonical re-encoding: a text `s` of alphabet characters decodes to some
octets `d`, and `base64url_encode d = s` exactly when the length of `s` is not `1`
modulo `4` and the bits of its last character that the decoder drops are zero (the
low 4 bits of its value when the length is `2` modulo `4`, the low 2 bits when it is
`3` modulo `4`).  The text `QR` decodes to the octet `0x41`, which encodes to `QQ`. -/
theorem reencode_canonical_iff (s : Bytes) (hs : ∀ c ∈ s, inAlphabet c) :
    (∃ d, base64url_decode s = .ok d ∧ (base64url_encode d = s ↔ canonical s)) ∧
      base64url_decode (lit "QR") = .ok [0x41] ∧ base64url_encode [0x41] = lit "QQ" ∧
      ¬ canonical (lit "QR") := by
  refine ⟨?_, by decide, by decide, by decide⟩
  obtain ⟨r, hr, hiff⟩ := reencode_aux s 0 [] hs
  exact ⟨r, by simpa [base64url_decode] using hr, hiff⟩

set_option maxRecDepth 4000 in
theorem reencode_canonical_iff_witness :
    (∃ d, base64url_decode (lit "TWE") = .ok d ∧
        (base64url_encode d = lit "TWE" ↔ canonical (lit "TWE"))) ∧
      base64url_decode (lit "QR") = .ok [0x41] ∧ base64url_encode [0x41] = lit "QQ" ∧
      ¬ canonical (lit "QR") :=
  reencode_canonical_iff (lit "TWE") (by decide)

end jwt
